import Mathlib

/-!
Shallow embedding of the Monte Carlo Tree Search engine of `src/src/mcts_chess.py`
(classes `MCTSConfig`, `MCTSNode`, `ChessMCTS`).

Modelling conventions:
* The chess library (`chess.Board`) is the external Rules Engine; it is abstracted
  as a `Rules Pos Move` record of the exact queries the MCTS code performs on a
  board (`legal_moves`, `push`, `is_game_over`, `is_checkmate`, `is_stalemate`,
  `is_insufficient_material`, `turn`).
* Python floats are modelled as exact numbers: accumulated scores (`wins`,
  simulation results) as `ℚ`, the UCB1 score as `WithTop ℝ` (`⊤` models
  `float('inf')` returned for unvisited nodes).
* Python `int` is modelled as `ℤ` where the source can hold negative values
  (the config fields), and as `ℕ` for the always non-negative counters.
* `random.shuffle` (node creation) is an oracle `shuffle : List Move → List Move`;
  the random playout loop of `MCTSNode.simulate` (lines 213-229), which has no
  termination guarantee of its own, is an oracle `roll : Pos → Pos` producing the
  final simulation board; `_evaluate_position` is embedded exactly.
* The mutable tree with parent pointers is embedded as an immutable rooted tree;
  `backpropagate` (lines 261-278), which walks parent pointers bottom-up adding
  `result` and flipping it to `1 - result` at each ply, is realized top-down along
  the selection path inside `searchIteration`.
* Exceptions are modelled by `Except`: `max()` on an empty sequence (line 371)
  and `wins / visits` with zero visits (line 375) are the two raising sites of
  `ChessMCTS.search`.
-/

/-- The Rules Engine: the operations of `chess.Board` that `mcts_chess.py` calls. -/
structure Rules (Pos Move : Type) where
  legalMoves : Pos → List Move
  push : Pos → Move → Pos
  isGameOver : Pos → Bool
  isCheckmate : Pos → Bool
  isStalemate : Pos → Bool
  isInsufficientMaterial : Pos → Bool
  turn : Pos → Bool

/-- `MCTSConfig` (mcts_chess.py lines 13-32).  Python ints/floats become `ℤ`/`ℝ`;
the dataclass defaults play no role in the claims and are omitted. -/
structure MCTSConfig where
  max_simulation_depth : ℤ
  num_simulations : ℤ
  exploration_constant : ℝ

/-- The scalar fields of `MCTSNode` (lines 68-80).  `parent` is replaced by the
path-based updates of `searchIteration`; `depth` is passed at creation instead of
being computed from the parent pointer (line 80). -/
structure NodeData (Pos Move : Type) where
  board : Pos
  move : Option Move
  visits : ℕ
  wins : ℚ
  legal_moves : List Move
  unexplored_moves : List Move
  depth : ℕ

/-- A node of the search tree: its scalar data plus the owned children list
(line 72).  A nested inductive stands in for the Python object graph. -/
inductive MCTSNode (Pos Move : Type) : Type where
  | mk (data : NodeData Pos Move) (children : List (MCTSNode Pos Move))

namespace MCTSNode

variable {Pos Move : Type}

def data : MCTSNode Pos Move → NodeData Pos Move
  | mk d _ => d

def children : MCTSNode Pos Move → List (MCTSNode Pos Move)
  | mk _ c => c

def board (t : MCTSNode Pos Move) : Pos := t.data.board

def move (t : MCTSNode Pos Move) : Option Move := t.data.move

def visits (t : MCTSNode Pos Move) : ℕ := t.data.visits

def wins (t : MCTSNode Pos Move) : ℚ := t.data.wins

def legal_moves (t : MCTSNode Pos Move) : List Move := t.data.legal_moves

def unexplored_moves (t : MCTSNode Pos Move) : List Move := t.data.unexplored_moves

def depth (t : MCTSNode Pos Move) : ℕ := t.data.depth

/-- `MCTSNode.__init__` (lines 68-80): legal moves are fetched once, shuffled,
and copied into `unexplored_moves`; statistics start at zero; no children. -/
def create (R : Rules Pos Move) (shuffle : List Move → List Move)
    (board : Pos) (move : Option Move) (depth : ℕ) : MCTSNode Pos Move :=
  MCTSNode.mk
    { board := board, move := move, visits := 0, wins := 0,
      legal_moves := shuffle (R.legalMoves board),
      unexplored_moves := shuffle (R.legalMoves board), depth := depth }
    []

/-- `MCTSNode.is_fully_expanded` (lines 82-91). -/
def is_fully_expanded (t : MCTSNode Pos Move) : Bool := t.unexplored_moves.isEmpty

/-- `MCTSNode.is_terminal` (lines 93-102). -/
def is_terminal (t : MCTSNode Pos Move) (R : Rules Pos Move) : Bool :=
  R.isGameOver t.board

/-- `MCTSNode.ucb1_value` (lines 104-132).  `float('inf')` becomes `⊤` of
`WithTop ℝ`; `self.parent.visits` becomes the explicit `parent_visits` argument
(line 131 reads it off the parent pointer). -/
noncomputable def ucb1_value (t : MCTSNode Pos Move) (exploration_constant : ℝ)
    (parent_visits : ℕ) : WithTop ℝ :=
  if t.visits = 0 then ⊤
  else
    (((t.wins : ℝ) / (t.visits : ℝ) +
        exploration_constant * Real.sqrt (Real.log (parent_visits : ℝ) / (t.visits : ℝ)) : ℝ) :
      WithTop ℝ)

/-- `MCTSNode.select_best_child` (lines 134-154): Python `max(children, key=...)`
keeps the first element among ties and raises on an empty list, exactly the
behaviour of `List.argmax` (which returns `none` on `[]`). -/
noncomputable def select_best_child (t : MCTSNode Pos Move) (exploration_constant : ℝ) :
    Option (MCTSNode Pos Move) :=
  t.children.argmax fun child => child.ucb1_value exploration_constant t.visits

/-- `MCTSNode.expand` (lines 156-190), acting on the owning parent: returns the
parent unchanged when there is no unexplored move or the depth cap is reached,
otherwise pops the first unexplored move and appends the new child (the source
returns the child; here it is the last element of the returned `children`). -/
def expand (R : Rules Pos Move) (shuffle : List Move → List Move) (max_depth : ℤ)
    (t : MCTSNode Pos Move) : MCTSNode Pos Move :=
  match t.unexplored_moves with
  | [] => t
  | m :: rest =>
    if max_depth ≤ (t.depth : ℤ) then t
    else
      MCTSNode.mk { t.data with unexplored_moves := rest }
        (t.children ++ [create R shuffle (R.push t.board m) (some m) (t.depth + 1)])

end MCTSNode

variable {Pos Move : Type}

/-- `MCTSNode._evaluate_position` (lines 234-259), embedded exactly: checkmate is
checked first; the player to move in a checkmate position has lost. -/
def evaluate_position (R : Rules Pos Move) (board_turn : Bool) (simulation_board : Pos) : ℚ :=
  if R.isCheckmate simulation_board then
    if R.turn simulation_board = board_turn then 0 else 1
  else if R.isStalemate simulation_board || R.isInsufficientMaterial simulation_board then
    1 / 2
  else
    1 / 2

/-- `MCTSNode.simulate` (lines 192-232): the uniformly random playout loop is the
oracle `roll` giving the final simulation board; the final board is then scored by
`_evaluate_position` from `board_turn`'s perspective. -/
def simulate (R : Rules Pos Move) (roll : Pos → Pos) (board_turn : Bool)
    (child_board : Pos) : ℚ :=
  evaluate_position R board_turn (roll child_board)

/-- One backpropagation update at a single node (lines 273-274):
`visits += 1; wins += result`. -/
def MCTSNode.update (t : MCTSNode Pos Move) (result : ℚ) : MCTSNode Pos Move :=
  MCTSNode.mk
    { t.data with visits := t.data.visits + 1, wins := t.data.wins + result }
    t.children

section Engine

variable (R : Rules Pos Move) (shuffle : List Move → List Move) (roll : Pos → Pos)
variable (cfg : MCTSConfig) (root_turn : Bool)

/-- The Expand + Simulate + Backpropagate tail of one loop iteration, at the node
where `_select` stopped (lines 353-361 with `expand`, lines 174-190): if there is
an unexplored move and the depth cap allows, a child is created from it, the
rollout runs from the child and the child receives the result; otherwise the
rollout runs from the stopped node itself.  The second component is the result
value credited to this subtree's root (already flipped once per ply below it, as
`backpropagate`'s `1.0 - result` recursion does, lines 276-278). -/
def stopStep (t : MCTSNode Pos Move) : MCTSNode Pos Move × ℚ :=
  match t.unexplored_moves with
  | [] =>
    let r := simulate R roll root_turn t.board
    (t.update r, r)
  | m :: rest =>
    if cfg.max_simulation_depth ≤ (t.depth : ℤ) then
      let r := simulate R roll root_turn t.board
      (t.update r, r)
    else
      let child := MCTSNode.create R shuffle (R.push t.board m) (some m) (t.depth + 1)
      let r := simulate R roll root_turn child.board
      (MCTSNode.mk
        { t.data with unexplored_moves := rest,
                      visits := t.data.visits + 1, wins := t.data.wins + (1 - r) }
        (t.children ++ [child.update r]),
       1 - r)

/-- One full Select-Expand-Simulate-Backpropagate iteration of the search loop
(lines 347-363): `_select` (lines 392-412) descends through the best UCB1 child
while the node is non-terminal and fully expanded; the descent carries the
backpropagation back up, each ancestor receiving `1 - result` of its child
(lines 276-278).  The child index is obtained by running Python's
first-maximum `max` over the enumerated children; the `none` branch of the
match (empty `children` with `unexplored_moves` empty on a non-terminal node)
cannot arise for a coherent rules engine — Python would raise there. -/
noncomputable def searchIteration : MCTSNode Pos Move → MCTSNode Pos Move × ℚ
  | t =>
    if t.is_terminal R = false ∧ t.is_fully_expanded = true then
      match hMax : (t.children.enumFrom 0).argmax
          (fun p => p.2.ucb1_value cfg.exploration_constant t.visits) with
      | some ic =>
        have hmem : ic.2 ∈ t.children := by
          have h1 := List.argmax_mem hMax
          rw [← List.enumFrom_map_snd 0 t.children]
          exact List.mem_map_of_mem Prod.snd h1
        let res := searchIteration ic.2
        (MCTSNode.mk
          { t.data with visits := t.data.visits + 1, wins := t.data.wins + (1 - res.2) }
          (t.children.set ic.1 res.1),
         1 - res.2)
      | none => stopStep R shuffle roll cfg root_turn t
    else stopStep R shuffle roll cfg root_turn t
termination_by t => sizeOf t
decreasing_by
  have h1 := List.sizeOf_lt_of_mem hmem
  have h2 : ∀ (u : MCTSNode Pos Move), sizeOf u.children < sizeOf u := by
    intro u
    rcases u with ⟨ud, uc⟩
    simp only [MCTSNode.children, MCTSNode.mk.sizeOf_spec]
    omega
  exact Nat.lt_trans h1 (h2 _)

/-- The updated tree after one iteration. -/
noncomputable def searchStep (t : MCTSNode Pos Move) : MCTSNode Pos Move :=
  (searchIteration R shuffle roll cfg root_turn t).1

/-- The iteration loop of `ChessMCTS.search` (lines 339, 347-363):
`while simulations_run < num_simulations`, run one iteration and increment the
counter.  Returns the final tree together with the final counter value. -/
noncomputable def searchLoop (t : MCTSNode Pos Move) (simulations_run : ℤ) :
    MCTSNode Pos Move × ℤ :=
  if simulations_run < cfg.num_simulations then
    searchLoop (searchIteration R shuffle roll cfg root_turn t).1 (simulations_run + 1)
  else
    (t, simulations_run)
termination_by (cfg.num_simulations - simulations_run).toNat
decreasing_by omega

end Engine

mutual

/-- `ChessMCTS._count_nodes` (lines 414-433): one plus the recursive counts of
the children. -/
def count_nodes : MCTSNode Pos Move → ℕ
  | .mk _ cs => 1 + count_nodes_list cs

/-- The `for child in node.children` accumulation inside `_count_nodes`. -/
def count_nodes_list : List (MCTSNode Pos Move) → ℕ
  | [] => 0
  | c :: cs => count_nodes c + count_nodes_list cs

end

/-- The two exceptions `ChessMCTS.search` can raise: `ValueError` from
`max()` over an empty children sequence (line 371) and `ZeroDivisionError`
from `best_child.wins / best_child.visits` (line 375). -/
inductive SearchError : Type where
  | emptyChildren : SearchError
  | divisionByZero : SearchError
deriving DecidableEq

/-- The statistics dictionary assembled by `ChessMCTS.search` (lines 379-388).
`total_time` and `simulations_per_second` are wall-clock measurements with no
counterpart in a pure embedding and are omitted. -/
structure SearchStats where
  simulations_run : ℤ
  tree_size : ℕ
  root_visits : ℕ
  best_move_visits : ℕ
  children_count : ℕ
  selected_move_win_rate : ℚ
deriving DecidableEq

/-- `ChessMCTS.search` (lines 313-390): build a fresh root, run the loop, pick
the root child with the most visits (Python `max`, raising on no children), then
compute its win rate (raising if its visits are zero) and the statistics.
`board_turn` passed to every simulation is `board.turn` of the root position
(line 358). -/
noncomputable def ChessMCTS.search (R : Rules Pos Move) (shuffle : List Move → List Move)
    (roll : Pos → Pos) (cfg : MCTSConfig) (board : Pos) :
    Except SearchError (Option Move × SearchStats) :=
  let res := searchLoop R shuffle roll cfg (R.turn board)
    (MCTSNode.create R shuffle board none 0) 0
  let root := res.1
  match root.children.argmax MCTSNode.visits with
  | none => Except.error SearchError.emptyChildren
  | some best_child =>
    if best_child.visits = 0 then Except.error SearchError.divisionByZero
    else
      Except.ok (best_child.move,
        { simulations_run := res.2,
          tree_size := count_nodes root,
          root_visits := root.visits,
          best_move_visits := (root.children.map MCTSNode.visits).foldl max 0,
          children_count := root.children.length,
          selected_move_win_rate := best_child.wins / (best_child.visits : ℚ) })

/-- `s` is a node of the tree rooted at `t` (reflexive-transitive closure of the
children relation). -/
inductive InTree : MCTSNode Pos Move → MCTSNode Pos Move → Prop where
  | refl (t : MCTSNode Pos Move) : InTree t t
  | child (s c t : MCTSNode Pos Move) : c ∈ t.children → InTree s c → InTree s t

/-- `P` holds at every node of the tree rooted at `t`. -/
inductive AllTree (P : MCTSNode Pos Move → Prop) : MCTSNode Pos Move → Prop where
  | mk (t : MCTSNode Pos Move) :
      P t → (∀ c ∈ t.children, AllTree P c) → AllTree P t

/-- A miniature rules engine for concrete witnesses: position 0 has the two
legal moves 3 and 4; `push` moves to the position named by the move; every
nonzero position is game over with no legal moves and none of the
checkmate/stalemate/insufficient-material flags set. -/
def ToyRules : Rules ℕ ℕ where
  legalMoves := fun p => if p = 0 then [3, 4] else []
  push := fun _ m => m
  isGameOver := fun p => decide (p ≠ 0)
  isCheckmate := fun _ => false
  isStalemate := fun _ => false
  isInsufficientMaterial := fun _ => false
  turn := fun _ => true

/-- A rules engine exercising every branch of `_evaluate_position`: position 1
is checkmate with the evaluated side to move, position 2 is checkmate with the
other side to move, position 3 is stalemate, position 4 is none of these. -/
def ToyEval : Rules ℕ ℕ where
  legalMoves := fun _ => []
  push := fun _ m => m
  isGameOver := fun _ => true
  isCheckmate := fun p => decide (p = 1 ∨ p = 2)
  isStalemate := fun p => decide (p = 3)
  isInsufficientMaterial := fun _ => false
  turn := fun p => decide (p = 1)

/-- A once-visited node (for the UCB1 witnesses). -/
def nodeVisited : MCTSNode ℕ ℕ := MCTSNode.mk ⟨3, some 3, 1, 1, [], [], 1⟩ []

/-- A never-visited node (for the UCB1 witnesses). -/
def nodeFresh : MCTSNode ℕ ℕ := MCTSNode.mk ⟨4, some 4, 0, 0, [], [], 1⟩ []

/-- A parent whose children are `nodeVisited` then `nodeFresh`. -/
def nodeParent : MCTSNode ℕ ℕ :=
  MCTSNode.mk ⟨0, none, 2, 1, [3, 4], [], 0⟩ [nodeVisited, nodeFresh]

/-- A parent whose children are `nodeFresh` then `nodeVisited`. -/
def nodeParentRev : MCTSNode ℕ ℕ :=
  MCTSNode.mk ⟨0, none, 2, 1, [3, 4], [], 0⟩ [nodeFresh, nodeVisited]

/-- A node sitting at depth 5 with unexplored moves left (depth-cap witness). -/
def nodeDeep : MCTSNode ℕ ℕ := MCTSNode.mk ⟨0, none, 0, 0, [3, 4], [3, 4], 5⟩ []

/-- The fresh root built by `search` on the toy start position 0. -/
def toyRoot : MCTSNode ℕ ℕ := MCTSNode.create ToyRules id 0 none 0

/-- The child expanded by the first toy iteration: move 3 played, one visit,
rollout score 1/2. -/
def toyChild : MCTSNode ℕ ℕ := MCTSNode.mk ⟨3, some 3, 1, 1/2, [], [], 1⟩ []

/-- The toy tree after one search iteration: move 3 expanded, rollout score 1/2
credited to the child, 1 - 1/2 to the root. -/
def toyRoot1 : MCTSNode ℕ ℕ :=
  MCTSNode.mk ⟨0, none, 1, 1/2, [3, 4], [4], 0⟩ [toyChild]

/-- Depth 1, budget 1, exploration 1. -/
noncomputable def cfgUnit : MCTSConfig := ⟨1, 1, 1⟩

/-- Depth 1, budget 0 (the loop never runs). -/
noncomputable def cfgZeroBudget : MCTSConfig := ⟨1, 0, 1⟩

/-- Depth 0 (expansion always refused), budget 1. -/
noncomputable def cfgZeroDepth : MCTSConfig := ⟨0, 1, 1⟩

/-- Depth 1, budget 1, non-positive exploration constant. -/
noncomputable def cfgNegExplore : MCTSConfig := ⟨1, 1, -1⟩

section BasicLemmas

variable {Pos Move : Type}

theorem MCTSNode.data_mk (d : NodeData Pos Move) (c : List (MCTSNode Pos Move)) :
    (MCTSNode.mk d c).data = d := rfl

theorem MCTSNode.children_mk (d : NodeData Pos Move) (c : List (MCTSNode Pos Move)) :
    (MCTSNode.mk d c).children = c := rfl

end BasicLemmas

section AccessorLemmas

variable {Pos Move : Type}

theorem MCTSNode.visits_mk (d : NodeData Pos Move) (c : List (MCTSNode Pos Move)) :
    (MCTSNode.mk d c).visits = d.visits := rfl

theorem MCTSNode.wins_mk (d : NodeData Pos Move) (c : List (MCTSNode Pos Move)) :
    (MCTSNode.mk d c).wins = d.wins := rfl

theorem MCTSNode.board_mk (d : NodeData Pos Move) (c : List (MCTSNode Pos Move)) :
    (MCTSNode.mk d c).board = d.board := rfl

theorem MCTSNode.move_mk (d : NodeData Pos Move) (c : List (MCTSNode Pos Move)) :
    (MCTSNode.mk d c).move = d.move := rfl

theorem MCTSNode.depth_mk (d : NodeData Pos Move) (c : List (MCTSNode Pos Move)) :
    (MCTSNode.mk d c).depth = d.depth := rfl

theorem MCTSNode.unexplored_moves_mk (d : NodeData Pos Move) (c : List (MCTSNode Pos Move)) :
    (MCTSNode.mk d c).unexplored_moves = d.unexplored_moves := rfl

theorem MCTSNode.update_visits (t : MCTSNode Pos Move) (r : ℚ) :
    (t.update r).visits = t.visits + 1 := rfl

theorem MCTSNode.update_wins (t : MCTSNode Pos Move) (r : ℚ) :
    (t.update r).wins = t.wins + r := rfl

theorem MCTSNode.update_children (t : MCTSNode Pos Move) (r : ℚ) :
    (t.update r).children = t.children := rfl

theorem MCTSNode.update_board (t : MCTSNode Pos Move) (r : ℚ) :
    (t.update r).board = t.board := rfl

theorem MCTSNode.update_depth (t : MCTSNode Pos Move) (r : ℚ) :
    (t.update r).depth = t.depth := rfl

theorem MCTSNode.update_unexplored_moves (t : MCTSNode Pos Move) (r : ℚ) :
    (t.update r).unexplored_moves = t.unexplored_moves := rfl

theorem MCTSNode.update_move (t : MCTSNode Pos Move) (r : ℚ) :
    (t.update r).move = t.move := rfl

theorem MCTSNode.create_visits (R : Rules Pos Move) (sh : List Move → List Move)
    (b : Pos) (mv : Option Move) (dp : ℕ) : (MCTSNode.create R sh b mv dp).visits = 0 := rfl

theorem MCTSNode.create_wins (R : Rules Pos Move) (sh : List Move → List Move)
    (b : Pos) (mv : Option Move) (dp : ℕ) : (MCTSNode.create R sh b mv dp).wins = 0 := rfl

theorem MCTSNode.create_children (R : Rules Pos Move) (sh : List Move → List Move)
    (b : Pos) (mv : Option Move) (dp : ℕ) : (MCTSNode.create R sh b mv dp).children = [] := rfl

theorem MCTSNode.create_board (R : Rules Pos Move) (sh : List Move → List Move)
    (b : Pos) (mv : Option Move) (dp : ℕ) : (MCTSNode.create R sh b mv dp).board = b := rfl

theorem MCTSNode.create_depth (R : Rules Pos Move) (sh : List Move → List Move)
    (b : Pos) (mv : Option Move) (dp : ℕ) : (MCTSNode.create R sh b mv dp).depth = dp := rfl

theorem MCTSNode.create_move (R : Rules Pos Move) (sh : List Move → List Move)
    (b : Pos) (mv : Option Move) (dp : ℕ) : (MCTSNode.create R sh b mv dp).move = mv := rfl

theorem MCTSNode.create_unexplored_moves (R : Rules Pos Move) (sh : List Move → List Move)
    (b : Pos) (mv : Option Move) (dp : ℕ) :
    (MCTSNode.create R sh b mv dp).unexplored_moves = sh (R.legalMoves b) := rfl

attribute [simp] MCTSNode.data_mk MCTSNode.children_mk MCTSNode.visits_mk MCTSNode.wins_mk
  MCTSNode.board_mk MCTSNode.move_mk MCTSNode.depth_mk MCTSNode.unexplored_moves_mk
  MCTSNode.update_visits MCTSNode.update_wins MCTSNode.update_children MCTSNode.update_board
  MCTSNode.update_depth MCTSNode.update_unexplored_moves MCTSNode.update_move
  MCTSNode.create_visits MCTSNode.create_wins MCTSNode.create_children MCTSNode.create_board
  MCTSNode.create_depth MCTSNode.create_move MCTSNode.create_unexplored_moves

/-- Any member of a node's children list is structurally smaller than the node. -/
theorem MCTSNode.sizeOf_lt_of_mem_children {c t : MCTSNode Pos Move}
    (h : c ∈ t.children) : sizeOf c < sizeOf t := by
  rcases t with ⟨d, cs⟩
  simp only [MCTSNode.children_mk] at h
  have := List.sizeOf_lt_of_mem h
  simp only [MCTSNode.mk.sizeOf_spec]
  omega

/-- The value `_evaluate_position` returns always lies in `[0, 1]`. -/
theorem evaluate_position_bounds (R : Rules Pos Move) (bt : Bool) (p : Pos) :
    0 ≤ evaluate_position R bt p ∧ evaluate_position R bt p ≤ 1 := by
  unfold evaluate_position
  split_ifs <;> norm_num

/-- The value a simulation returns always lies in `[0, 1]`. -/
theorem simulate_bounds (R : Rules Pos Move) (roll : Pos → Pos) (bt : Bool) (p : Pos) :
    0 ≤ simulate R roll bt p ∧ simulate R roll bt p ≤ 1 :=
  evaluate_position_bounds R bt (roll p)

/-- A first element returned by Python `max` over the enumerated children sits in
the list at the index it is paired with. -/
theorem argmax_enumFrom_getElem {α β : Type} [LinearOrder β] (f : ℕ × α → β)
    (l : List α) (ic : ℕ × α) (h : (l.enumFrom 0).argmax f = some ic) :
    l[ic.1]? = some ic.2 := by
  have hm : ic ∈ l.enumFrom 0 := List.argmax_mem h
  obtain ⟨j, hj⟩ := List.mem_iff_getElem?.1 hm
  rw [List.getElem?_enumFrom] at hj
  cases hl : l[j]? with
  | none => rw [hl] at hj; simp at hj
  | some a =>
    rw [hl] at hj
    simp only [Option.map_some'] at hj
    cases hj
    simpa using hl

/-- A first element returned by Python `max` over the enumerated children is a
member of the children list. -/
theorem argmax_enumFrom_mem {α β : Type} [LinearOrder β] (f : ℕ × α → β)
    (l : List α) (ic : ℕ × α) (h : (l.enumFrom 0).argmax f = some ic) :
    ic.2 ∈ l :=
  List.getElem?_mem (argmax_enumFrom_getElem f l ic h)

/-- Bumping one entry of a list of naturals bumps the sum. -/
theorem sum_set_succ : ∀ (ns : List ℕ) (i a : ℕ), ns[i]? = some a →
    (ns.set i (a + 1)).sum = ns.sum + 1 := by
  intro ns
  induction ns with
  | nil => intro i a h; simp at h
  | cons x xs ih =>
    intro i a h
    cases i with
    | zero =>
      simp only [List.getElem?_cons_zero, Option.some.injEq] at h
      subst h
      simp [List.set]
      omega
    | succ j =>
      simp only [List.getElem?_cons_succ] at h
      simp [List.set, ih j a h]
      omega

end AccessorLemmas

section BranchLemmas

variable {Pos Move : Type}
variable (R : Rules Pos Move) (shuffle : List Move → List Move) (roll : Pos → Pos)
variable (cfg : MCTSConfig) (root_turn : Bool)

/-- On a terminal node `_select` stops immediately, so the iteration reduces to
the Expand/Simulate/Backpropagate tail. -/
theorem searchIteration_of_terminal (t : MCTSNode Pos Move) (h : t.is_terminal R = true) :
    searchIteration R shuffle roll cfg root_turn t = stopStep R shuffle roll cfg root_turn t := by
  rw [searchIteration.eq_def]
  simp [h]

/-- On a node that is not fully expanded `_select` stops immediately. -/
theorem searchIteration_of_not_fully (t : MCTSNode Pos Move) (h : t.is_fully_expanded = false) :
    searchIteration R shuffle roll cfg root_turn t = stopStep R shuffle roll cfg root_turn t := by
  rw [searchIteration.eq_def]
  simp [h]

/-- On a non-terminal fully-expanded node the iteration descends into the best
UCB1 child and backpropagates `1 - result` here. -/
theorem searchIteration_descend (t : MCTSNode Pos Move)
    (h1 : t.is_terminal R = false) (h2 : t.is_fully_expanded = true)
    (ic : ℕ × MCTSNode Pos Move)
    (hMax : (t.children.enumFrom 0).argmax
      (fun p => p.2.ucb1_value cfg.exploration_constant t.visits) = some ic) :
    searchIteration R shuffle roll cfg root_turn t =
      (MCTSNode.mk
        { t.data with
            visits := t.data.visits + 1
            wins := t.data.wins + (1 - (searchIteration R shuffle roll cfg root_turn ic.2).2) }
        (t.children.set ic.1 (searchIteration R shuffle roll cfg root_turn ic.2).1),
       1 - (searchIteration R shuffle roll cfg root_turn ic.2).2) := by
  rw [searchIteration.eq_def]
  simp only [h1, h2, and_self, if_true]
  split
  · rename_i ic' heq
    rw [hMax] at heq
    cases heq
    rfl
  · rename_i heq
    rw [hMax] at heq
    cases heq

/-- With no child at all on a non-terminal fully-expanded node (unreachable for a
coherent rules engine; Python's `max` would raise) the embedding falls back to the
Expand/Simulate/Backpropagate tail. -/
theorem searchIteration_of_none (t : MCTSNode Pos Move)
    (h1 : t.is_terminal R = false) (h2 : t.is_fully_expanded = true)
    (hMax : (t.children.enumFrom 0).argmax
      (fun p => p.2.ucb1_value cfg.exploration_constant t.visits) = none) :
    searchIteration R shuffle roll cfg root_turn t = stopStep R shuffle roll cfg root_turn t := by
  rw [searchIteration.eq_def]
  simp only [h1, h2, and_self, if_true]
  split
  · rename_i ic' heq
    rw [hMax] at heq
    cases heq
  · rfl

/-- With no unexplored move left, expansion is a no-op and the rollout runs from
the stopped node itself. -/
theorem stopStep_of_no_moves (t : MCTSNode Pos Move) (h : t.unexplored_moves = []) :
    stopStep R shuffle roll cfg root_turn t =
      (t.update (simulate R roll root_turn t.board), simulate R roll root_turn t.board) := by
  unfold stopStep
  rw [h]

/-- At or beyond the depth cap, expansion is a no-op and the rollout runs from
the stopped node itself. -/
theorem stopStep_of_depth (t : MCTSNode Pos Move) (m : Move) (rest : List Move)
    (h : t.unexplored_moves = m :: rest) (hd : cfg.max_simulation_depth ≤ (t.depth : ℤ)) :
    stopStep R shuffle roll cfg root_turn t =
      (t.update (simulate R roll root_turn t.board), simulate R roll root_turn t.board) := by
  unfold stopStep
  rw [h]
  simp [hd]

/-- Below the depth cap with an unexplored move left, the first unexplored move
is popped, a child is created for it, the rollout runs from the child's board and
the result is recorded at the child; the stopped node records `1 - result`. -/
theorem stopStep_of_expand (t : MCTSNode Pos Move) (m : Move) (rest : List Move)
    (h : t.unexplored_moves = m :: rest) (hd : ¬ cfg.max_simulation_depth ≤ (t.depth : ℤ)) :
    stopStep R shuffle roll cfg root_turn t =
      (MCTSNode.mk
        { t.data with
            unexplored_moves := rest
            visits := t.data.visits + 1
            wins := t.data.wins +
              (1 - simulate R roll root_turn (R.push t.board m)) }
        (t.children ++
          [(MCTSNode.create R shuffle (R.push t.board m) (some m) (t.depth + 1)).update
            (simulate R roll root_turn (R.push t.board m))]),
       1 - simulate R roll root_turn (R.push t.board m)) := by
  unfold stopStep
  rw [h]
  simp [hd]

/-- The loop returns as soon as the counter reaches `num_simulations`. -/
theorem searchLoop_stop (t : MCTSNode Pos Move) (run : ℤ)
    (h : ¬ run < cfg.num_simulations) :
    searchLoop R shuffle roll cfg root_turn t run = (t, run) := by
  rw [searchLoop.eq_def]
  simp [h]

/-- While the counter is below `num_simulations`, the loop runs one iteration
and increments the counter. -/
theorem searchLoop_go (t : MCTSNode Pos Move) (run : ℤ)
    (h : run < cfg.num_simulations) :
    searchLoop R shuffle roll cfg root_turn t run =
      searchLoop R shuffle roll cfg root_turn
        (searchIteration R shuffle roll cfg root_turn t).1 (run + 1) := by
  rw [searchLoop.eq_def]
  simp [h]

end BranchLemmas

section StepFieldLemmas

variable {Pos Move : Type}
variable (R : Rules Pos Move) (shuffle : List Move → List Move) (roll : Pos → Pos)
variable (cfg : MCTSConfig) (root_turn : Bool)

/-- The Expand/Simulate/Backpropagate tail adds exactly one visit at the
stopped node. -/
theorem stopStep_visits (t : MCTSNode Pos Move) :
    (stopStep R shuffle roll cfg root_turn t).1.visits = t.visits + 1 := by
  rcases h : t.unexplored_moves with _ | ⟨m, rest⟩
  · rw [stopStep_of_no_moves R shuffle roll cfg root_turn t h]
    simp
  · by_cases hd : cfg.max_simulation_depth ≤ (t.depth : ℤ)
    · rw [stopStep_of_depth R shuffle roll cfg root_turn t m rest h hd]
      simp
    · rw [stopStep_of_expand R shuffle roll cfg root_turn t m rest h hd]
      simp [MCTSNode.visits]

theorem stopStep_board (t : MCTSNode Pos Move) :
    (stopStep R shuffle roll cfg root_turn t).1.board = t.board := by
  rcases h : t.unexplored_moves with _ | ⟨m, rest⟩
  · rw [stopStep_of_no_moves R shuffle roll cfg root_turn t h]
    simp
  · by_cases hd : cfg.max_simulation_depth ≤ (t.depth : ℤ)
    · rw [stopStep_of_depth R shuffle roll cfg root_turn t m rest h hd]
      simp
    · rw [stopStep_of_expand R shuffle roll cfg root_turn t m rest h hd]
      simp [MCTSNode.board]

theorem stopStep_depth (t : MCTSNode Pos Move) :
    (stopStep R shuffle roll cfg root_turn t).1.depth = t.depth := by
  rcases h : t.unexplored_moves with _ | ⟨m, rest⟩
  · rw [stopStep_of_no_moves R shuffle roll cfg root_turn t h]
    simp
  · by_cases hd : cfg.max_simulation_depth ≤ (t.depth : ℤ)
    · rw [stopStep_of_depth R shuffle roll cfg root_turn t m rest h hd]
      simp
    · rw [stopStep_of_expand R shuffle roll cfg root_turn t m rest h hd]
      simp [MCTSNode.depth]

/-- The value the Expand/Simulate/Backpropagate tail reports lies in `[0, 1]`. -/
theorem stopStep_result_bounds (t : MCTSNode Pos Move) :
    0 ≤ (stopStep R shuffle roll cfg root_turn t).2 ∧
      (stopStep R shuffle roll cfg root_turn t).2 ≤ 1 := by
  rcases h : t.unexplored_moves with _ | ⟨m, rest⟩
  · rw [stopStep_of_no_moves R shuffle roll cfg root_turn t h]
    exact simulate_bounds R roll root_turn t.board
  · by_cases hd : cfg.max_simulation_depth ≤ (t.depth : ℤ)
    · rw [stopStep_of_depth R shuffle roll cfg root_turn t m rest h hd]
      exact simulate_bounds R roll root_turn t.board
    · rw [stopStep_of_expand R shuffle roll cfg root_turn t m rest h hd]
      have hb := simulate_bounds R roll root_turn (R.push t.board m)
      dsimp only
      constructor
      · linarith [hb.2]
      · linarith [hb.1]

/-- Every search iteration adds exactly one visit at the node it is run on — in
particular at the root, once per completed loop iteration. -/
theorem searchIteration_visits (t : MCTSNode Pos Move) :
    (searchIteration R shuffle roll cfg root_turn t).1.visits = t.visits + 1 := by
  by_cases h1 : t.is_terminal R = false
  · by_cases h2 : t.is_fully_expanded = true
    · rcases hMax : (t.children.enumFrom 0).argmax
        (fun p => p.2.ucb1_value cfg.exploration_constant t.visits) with _ | ic
      · rw [searchIteration_of_none R shuffle roll cfg root_turn t h1 h2 hMax]
        exact stopStep_visits R shuffle roll cfg root_turn t
      · rw [searchIteration_descend R shuffle roll cfg root_turn t h1 h2 ic hMax]
        simp [MCTSNode.visits]
    · rw [searchIteration_of_not_fully R shuffle roll cfg root_turn t
        (Bool.not_eq_true _ ▸ (by simpa using h2))]
      exact stopStep_visits R shuffle roll cfg root_turn t
  · rw [searchIteration_of_terminal R shuffle roll cfg root_turn t (by simpa using h1)]
    exact stopStep_visits R shuffle roll cfg root_turn t

theorem searchIteration_board (t : MCTSNode Pos Move) :
    (searchIteration R shuffle roll cfg root_turn t).1.board = t.board := by
  by_cases h1 : t.is_terminal R = false
  · by_cases h2 : t.is_fully_expanded = true
    · rcases hMax : (t.children.enumFrom 0).argmax
        (fun p => p.2.ucb1_value cfg.exploration_constant t.visits) with _ | ic
      · rw [searchIteration_of_none R shuffle roll cfg root_turn t h1 h2 hMax]
        exact stopStep_board R shuffle roll cfg root_turn t
      · rw [searchIteration_descend R shuffle roll cfg root_turn t h1 h2 ic hMax]
        simp [MCTSNode.board]
    · rw [searchIteration_of_not_fully R shuffle roll cfg root_turn t
        (Bool.not_eq_true _ ▸ (by simpa using h2))]
      exact stopStep_board R shuffle roll cfg root_turn t
  · rw [searchIteration_of_terminal R shuffle roll cfg root_turn t (by simpa using h1)]
    exact stopStep_board R shuffle roll cfg root_turn t

theorem searchIteration_depth (t : MCTSNode Pos Move) :
    (searchIteration R shuffle roll cfg root_turn t).1.depth = t.depth := by
  by_cases h1 : t.is_terminal R = false
  · by_cases h2 : t.is_fully_expanded = true
    · rcases hMax : (t.children.enumFrom 0).argmax
        (fun p => p.2.ucb1_value cfg.exploration_constant t.visits) with _ | ic
      · rw [searchIteration_of_none R shuffle roll cfg root_turn t h1 h2 hMax]
        exact stopStep_depth R shuffle roll cfg root_turn t
      · rw [searchIteration_descend R shuffle roll cfg root_turn t h1 h2 ic hMax]
        simp [MCTSNode.depth]
    · rw [searchIteration_of_not_fully R shuffle roll cfg root_turn t
        (Bool.not_eq_true _ ▸ (by simpa using h2))]
      exact stopStep_depth R shuffle roll cfg root_turn t
  · rw [searchIteration_of_terminal R shuffle roll cfg root_turn t (by simpa using h1)]
    exact stopStep_depth R shuffle roll cfg root_turn t

end StepFieldLemmas

section TreeLemmas

variable {Pos Move : Type}

theorem AllTree.head {P : MCTSNode Pos Move → Prop} {t : MCTSNode Pos Move}
    (h : AllTree P t) : P t := by
  cases h
  assumption

theorem AllTree.child_all {P : MCTSNode Pos Move → Prop} {t : MCTSNode Pos Move}
    (h : AllTree P t) : ∀ c ∈ t.children, AllTree P c := by
  cases h
  assumption

/-- A property holding on the whole tree holds at every node of the tree. -/
theorem AllTree.to_inTree {P : MCTSNode Pos Move → Prop} :
    ∀ {s t : MCTSNode Pos Move}, AllTree P t → InTree s t → P s := by
  intro s t hAll hIn
  induction hIn with
  | refl => exact hAll.head
  | child c t' hc hsub ih => exact ih (hAll.child_all c hc)

/-- A childless node satisfies `AllTree P` as soon as it satisfies `P`. -/
theorem allTree_of_no_children {P : MCTSNode Pos Move → Prop} {t : MCTSNode Pos Move}
    (h : t.children = []) (hP : P t) : AllTree P t :=
  AllTree.mk t hP (by rw [h]; intro c hc; cases hc)

end TreeLemmas

section ResultBounds

variable {Pos Move : Type}
variable (R : Rules Pos Move) (shuffle : List Move → List Move) (roll : Pos → Pos)
variable (cfg : MCTSConfig) (root_turn : Bool)

theorem searchIteration_result_bounds_aux :
    ∀ (n : ℕ) (t : MCTSNode Pos Move), sizeOf t < n →
      0 ≤ (searchIteration R shuffle roll cfg root_turn t).2 ∧
        (searchIteration R shuffle roll cfg root_turn t).2 ≤ 1 := by
  intro n
  induction n with
  | zero => intro t ht; exact absurd ht (Nat.not_lt_zero _)
  | succ n ih =>
    intro t ht
    by_cases h1 : t.is_terminal R = false
    · by_cases h2 : t.is_fully_expanded = true
      · rcases hMax : (t.children.enumFrom 0).argmax
          (fun p => p.2.ucb1_value cfg.exploration_constant t.visits) with _ | ic
        · rw [searchIteration_of_none R shuffle roll cfg root_turn t h1 h2 hMax]
          exact stopStep_result_bounds R shuffle roll cfg root_turn t
        · rw [searchIteration_descend R shuffle roll cfg root_turn t h1 h2 ic hMax]
          have hmem := argmax_enumFrom_mem _ t.children ic hMax
          have hsz := MCTSNode.sizeOf_lt_of_mem_children hmem
          have hrec := ih ic.2 (by omega)
          dsimp only
          constructor
          · linarith [hrec.2]
          · linarith [hrec.1]
      · rw [searchIteration_of_not_fully R shuffle roll cfg root_turn t (by simpa using h2)]
        exact stopStep_result_bounds R shuffle roll cfg root_turn t
    · rw [searchIteration_of_terminal R shuffle roll cfg root_turn t (by simpa using h1)]
      exact stopStep_result_bounds R shuffle roll cfg root_turn t

/-- The backpropagated value of every search iteration lies in `[0, 1]`. -/
theorem searchIteration_result_bounds (t : MCTSNode Pos Move) :
    0 ≤ (searchIteration R shuffle roll cfg root_turn t).2 ∧
      (searchIteration R shuffle roll cfg root_turn t).2 ≤ 1 :=
  searchIteration_result_bounds_aux R shuffle roll cfg root_turn (sizeOf t + 1) t (by omega)

end ResultBounds

section StopStepPreservation

variable {Pos Move : Type}
variable (R : Rules Pos Move) (shuffle : List Move → List Move) (roll : Pos → Pos)
variable (cfg : MCTSConfig) (root_turn : Bool)

/-- The Expand/Simulate/Backpropagate tail never gives children to a node at or
beyond the depth cap. -/
theorem stopStep_preserves_depthCap (t : MCTSNode Pos Move)
    (hAll : AllTree (fun s => cfg.max_simulation_depth ≤ (s.depth : ℤ) → s.children = []) t) :
    AllTree (fun s => cfg.max_simulation_depth ≤ (s.depth : ℤ) → s.children = [])
      (stopStep R shuffle roll cfg root_turn t).1 := by
  rcases h : t.unexplored_moves with _ | ⟨m, rest⟩
  · rw [stopStep_of_no_moves R shuffle roll cfg root_turn t h]
    refine AllTree.mk _ ?_ ?_
    · intro hd
      rw [MCTSNode.update_children]
      exact hAll.head (by simpa using hd)
    · intro c hc
      rw [MCTSNode.update_children] at hc
      exact hAll.child_all c hc
  · by_cases hd : cfg.max_simulation_depth ≤ (t.depth : ℤ)
    · rw [stopStep_of_depth R shuffle roll cfg root_turn t m rest h hd]
      refine AllTree.mk _ ?_ ?_
      · intro hd2
        rw [MCTSNode.update_children]
        exact hAll.head (by simpa using hd2)
      · intro c hc
        rw [MCTSNode.update_children] at hc
        exact hAll.child_all c hc
    · rw [stopStep_of_expand R shuffle roll cfg root_turn t m rest h hd]
      refine AllTree.mk _ ?_ ?_
      · intro habs
        exact absurd (by simpa using habs) hd
      · intro c hc
        simp only [MCTSNode.children_mk] at hc
        rcases List.mem_append.1 hc with hcl | hcr
        · exact hAll.child_all c hcl
        · simp only [List.mem_singleton] at hcr
          subst hcr
          exact allTree_of_no_children rfl (fun _ => rfl)

/-- The Expand/Simulate/Backpropagate tail preserves `0 ≤ wins ≤ visits` on the
whole subtree. -/
theorem stopStep_preserves_winsBound (t : MCTSNode Pos Move)
    (hAll : AllTree (fun s => 0 ≤ s.wins ∧ s.wins ≤ (s.visits : ℚ)) t) :
    AllTree (fun s => 0 ≤ s.wins ∧ s.wins ≤ (s.visits : ℚ))
      (stopStep R shuffle roll cfg root_turn t).1 := by
  have hP := hAll.head
  rcases h : t.unexplored_moves with _ | ⟨m, rest⟩
  · rw [stopStep_of_no_moves R shuffle roll cfg root_turn t h]
    have hr := simulate_bounds R roll root_turn t.board
    refine AllTree.mk _ ⟨?_, ?_⟩ ?_
    · rw [MCTSNode.update_wins]
      linarith [hP.1, hr.1]
    · rw [MCTSNode.update_wins, MCTSNode.update_visits]
      push_cast
      linarith [hP.2, hr.2]
    · intro c hc
      rw [MCTSNode.update_children] at hc
      exact hAll.child_all c hc
  · by_cases hd : cfg.max_simulation_depth ≤ (t.depth : ℤ)
    · rw [stopStep_of_depth R shuffle roll cfg root_turn t m rest h hd]
      have hr := simulate_bounds R roll root_turn t.board
      refine AllTree.mk _ ⟨?_, ?_⟩ ?_
      · rw [MCTSNode.update_wins]
        linarith [hP.1, hr.1]
      · rw [MCTSNode.update_wins, MCTSNode.update_visits]
        push_cast
        linarith [hP.2, hr.2]
      · intro c hc
        rw [MCTSNode.update_children] at hc
        exact hAll.child_all c hc
    · rw [stopStep_of_expand R shuffle roll cfg root_turn t m rest h hd]
      have hr := simulate_bounds R roll root_turn (R.push t.board m)
      have hw : t.wins = t.data.wins := rfl
      have hv : t.visits = t.data.visits := rfl
      refine AllTree.mk _ ⟨?_, ?_⟩ ?_
      · simp only [MCTSNode.wins_mk]
        rw [hw] at hP
        linarith [hP.1, hr.2]
      · simp only [MCTSNode.wins_mk, MCTSNode.visits_mk]
        rw [hw, hv] at hP
        push_cast
        linarith [hP.2, hr.1]
      · intro c hc
        simp only [MCTSNode.children_mk] at hc
        rcases List.mem_append.1 hc with hcl | hcr
        · exact hAll.child_all c hcl
        · simp only [List.mem_singleton] at hcr
          subst hcr
          refine allTree_of_no_children rfl ⟨?_, ?_⟩
          · rw [MCTSNode.update_wins, MCTSNode.create_wins]
            linarith [hr.1]
          · rw [MCTSNode.update_wins, MCTSNode.create_wins,
              MCTSNode.update_visits, MCTSNode.create_visits]
            push_cast
            linarith [hr.2]

/-- The Expand/Simulate/Backpropagate tail preserves "a node's visits dominate
the sum of its children's visits" on the whole subtree. -/
theorem stopStep_preserves_childSum (t : MCTSNode Pos Move)
    (hAll : AllTree (fun s => (s.children.map MCTSNode.visits).sum ≤ s.visits) t) :
    AllTree (fun s => (s.children.map MCTSNode.visits).sum ≤ s.visits)
      (stopStep R shuffle roll cfg root_turn t).1 := by
  have hP := hAll.head
  rcases h : t.unexplored_moves with _ | ⟨m, rest⟩
  · rw [stopStep_of_no_moves R shuffle roll cfg root_turn t h]
    refine AllTree.mk _ ?_ ?_
    · rw [MCTSNode.update_children, MCTSNode.update_visits]
      omega
    · intro c hc
      rw [MCTSNode.update_children] at hc
      exact hAll.child_all c hc
  · by_cases hd : cfg.max_simulation_depth ≤ (t.depth : ℤ)
    · rw [stopStep_of_depth R shuffle roll cfg root_turn t m rest h hd]
      refine AllTree.mk _ ?_ ?_
      · rw [MCTSNode.update_children, MCTSNode.update_visits]
        omega
      · intro c hc
        rw [MCTSNode.update_children] at hc
        exact hAll.child_all c hc
    · rw [stopStep_of_expand R shuffle roll cfg root_turn t m rest h hd]
      have hv : t.visits = t.data.visits := rfl
      refine AllTree.mk _ ?_ ?_
      · simp only [MCTSNode.children_mk, MCTSNode.visits_mk, List.map_append,
          List.sum_append, List.map_cons, List.map_nil, List.sum_cons, List.sum_nil]
        rw [MCTSNode.update_visits, MCTSNode.create_visits]
        rw [hv] at hP
        omega
      · intro c hc
        simp only [MCTSNode.children_mk] at hc
        rcases List.mem_append.1 hc with hcl | hcr
        · exact hAll.child_all c hcl
        · simp only [List.mem_singleton] at hcr
          subst hcr
          refine allTree_of_no_children rfl ?_
          rw [MCTSNode.update_children, MCTSNode.create_children]
          simp

end StopStepPreservation

section IterationPreservation

variable {Pos Move : Type}
variable (R : Rules Pos Move) (shuffle : List Move → List Move) (roll : Pos → Pos)
variable (cfg : MCTSConfig) (root_turn : Bool)

theorem searchIteration_preserves_depthCap_aux :
    ∀ (n : ℕ) (t : MCTSNode Pos Move), sizeOf t < n →
      AllTree (fun s => cfg.max_simulation_depth ≤ (s.depth : ℤ) → s.children = []) t →
      AllTree (fun s => cfg.max_simulation_depth ≤ (s.depth : ℤ) → s.children = [])
        (searchIteration R shuffle roll cfg root_turn t).1 := by
  intro n
  induction n with
  | zero => intro t ht; exact absurd ht (Nat.not_lt_zero _)
  | succ n ih =>
    intro t ht hAll
    by_cases h1 : t.is_terminal R = false
    · by_cases h2 : t.is_fully_expanded = true
      · rcases hMax : (t.children.enumFrom 0).argmax
          (fun p => p.2.ucb1_value cfg.exploration_constant t.visits) with _ | ic
        · rw [searchIteration_of_none R shuffle roll cfg root_turn t h1 h2 hMax]
          exact stopStep_preserves_depthCap R shuffle roll cfg root_turn t hAll
        · rw [searchIteration_descend R shuffle roll cfg root_turn t h1 h2 ic hMax]
          have hmem := argmax_enumFrom_mem _ t.children ic hMax
          have hsz := MCTSNode.sizeOf_lt_of_mem_children hmem
          dsimp only
          refine AllTree.mk _ ?_ ?_
          · intro habs
            have hempty := hAll.head (by simpa using habs)
            rw [hempty] at hMax
            simp at hMax
          · intro c hc
            simp only [MCTSNode.children_mk] at hc
            rcases List.mem_or_eq_of_mem_set hc with hcl | hcr
            · exact hAll.child_all c hcl
            · subst hcr
              exact ih ic.2 (by omega) (hAll.child_all ic.2 hmem)
      · rw [searchIteration_of_not_fully R shuffle roll cfg root_turn t (by simpa using h2)]
        exact stopStep_preserves_depthCap R shuffle roll cfg root_turn t hAll
    · rw [searchIteration_of_terminal R shuffle roll cfg root_turn t (by simpa using h1)]
      exact stopStep_preserves_depthCap R shuffle roll cfg root_turn t hAll

/-- A search iteration never gives children to a node at or beyond the depth cap. -/
theorem searchIteration_preserves_depthCap (t : MCTSNode Pos Move)
    (hAll : AllTree (fun s => cfg.max_simulation_depth ≤ (s.depth : ℤ) → s.children = []) t) :
    AllTree (fun s => cfg.max_simulation_depth ≤ (s.depth : ℤ) → s.children = [])
      (searchIteration R shuffle roll cfg root_turn t).1 :=
  searchIteration_preserves_depthCap_aux R shuffle roll cfg root_turn
    (sizeOf t + 1) t (by omega) hAll

theorem searchIteration_preserves_winsBound_aux :
    ∀ (n : ℕ) (t : MCTSNode Pos Move), sizeOf t < n →
      AllTree (fun s => 0 ≤ s.wins ∧ s.wins ≤ (s.visits : ℚ)) t →
      AllTree (fun s => 0 ≤ s.wins ∧ s.wins ≤ (s.visits : ℚ))
        (searchIteration R shuffle roll cfg root_turn t).1 := by
  intro n
  induction n with
  | zero => intro t ht; exact absurd ht (Nat.not_lt_zero _)
  | succ n ih =>
    intro t ht hAll
    by_cases h1 : t.is_terminal R = false
    · by_cases h2 : t.is_fully_expanded = true
      · rcases hMax : (t.children.enumFrom 0).argmax
          (fun p => p.2.ucb1_value cfg.exploration_constant t.visits) with _ | ic
        · rw [searchIteration_of_none R shuffle roll cfg root_turn t h1 h2 hMax]
          exact stopStep_preserves_winsBound R shuffle roll cfg root_turn t hAll
        · rw [searchIteration_descend R shuffle roll cfg root_turn t h1 h2 ic hMax]
          have hmem := argmax_enumFrom_mem _ t.children ic hMax
          have hsz := MCTSNode.sizeOf_lt_of_mem_children hmem
          have hv := searchIteration_result_bounds R shuffle roll cfg root_turn ic.2
          have hP := hAll.head
          have hw : t.wins = t.data.wins := rfl
          have hvis : t.visits = t.data.visits := rfl
          rw [hw, hvis] at hP
          dsimp only
          refine AllTree.mk _ ⟨?_, ?_⟩ ?_
          · simp only [MCTSNode.wins_mk]
            linarith [hP.1, hv.2]
          · simp only [MCTSNode.wins_mk, MCTSNode.visits_mk]
            push_cast
            linarith [hP.2, hv.1]
          · intro c hc
            simp only [MCTSNode.children_mk] at hc
            rcases List.mem_or_eq_of_mem_set hc with hcl | hcr
            · exact hAll.child_all c hcl
            · subst hcr
              exact ih ic.2 (by omega) (hAll.child_all ic.2 hmem)
      · rw [searchIteration_of_not_fully R shuffle roll cfg root_turn t (by simpa using h2)]
        exact stopStep_preserves_winsBound R shuffle roll cfg root_turn t hAll
    · rw [searchIteration_of_terminal R shuffle roll cfg root_turn t (by simpa using h1)]
      exact stopStep_preserves_winsBound R shuffle roll cfg root_turn t hAll

/-- A search iteration preserves `0 ≤ wins ≤ visits` on the whole tree. -/
theorem searchIteration_preserves_winsBound (t : MCTSNode Pos Move)
    (hAll : AllTree (fun s => 0 ≤ s.wins ∧ s.wins ≤ (s.visits : ℚ)) t) :
    AllTree (fun s => 0 ≤ s.wins ∧ s.wins ≤ (s.visits : ℚ))
      (searchIteration R shuffle roll cfg root_turn t).1 :=
  searchIteration_preserves_winsBound_aux R shuffle roll cfg root_turn
    (sizeOf t + 1) t (by omega) hAll

theorem searchIteration_preserves_childSum_aux :
    ∀ (n : ℕ) (t : MCTSNode Pos Move), sizeOf t < n →
      AllTree (fun s => (s.children.map MCTSNode.visits).sum ≤ s.visits) t →
      AllTree (fun s => (s.children.map MCTSNode.visits).sum ≤ s.visits)
        (searchIteration R shuffle roll cfg root_turn t).1 := by
  intro n
  induction n with
  | zero => intro t ht; exact absurd ht (Nat.not_lt_zero _)
  | succ n ih =>
    intro t ht hAll
    by_cases h1 : t.is_terminal R = false
    · by_cases h2 : t.is_fully_expanded = true
      · rcases hMax : (t.children.enumFrom 0).argmax
          (fun p => p.2.ucb1_value cfg.exploration_constant t.visits) with _ | ic
        · rw [searchIteration_of_none R shuffle roll cfg root_turn t h1 h2 hMax]
          exact stopStep_preserves_childSum R shuffle roll cfg root_turn t hAll
        · rw [searchIteration_descend R shuffle roll cfg root_turn t h1 h2 ic hMax]
          have hmem := argmax_enumFrom_mem _ t.children ic hMax
          have hget := argmax_enumFrom_getElem _ t.children ic hMax
          have hsz := MCTSNode.sizeOf_lt_of_mem_children hmem
          have hP := hAll.head
          have hvis : t.visits = t.data.visits := rfl
          rw [hvis] at hP
          dsimp only
          refine AllTree.mk _ ?_ ?_
          · simp only [MCTSNode.children_mk, MCTSNode.visits_mk, List.map_set]
            have hvisits := searchIteration_visits R shuffle roll cfg root_turn ic.2
            rw [hvisits]
            have hgm : (t.children.map MCTSNode.visits)[ic.1]? = some ic.2.visits := by
              rw [List.getElem?_map, hget]
              rfl
            rw [sum_set_succ (t.children.map MCTSNode.visits) ic.1 ic.2.visits hgm]
            omega
          · intro c hc
            simp only [MCTSNode.children_mk] at hc
            rcases List.mem_or_eq_of_mem_set hc with hcl | hcr
            · exact hAll.child_all c hcl
            · subst hcr
              exact ih ic.2 (by omega) (hAll.child_all ic.2 hmem)
      · rw [searchIteration_of_not_fully R shuffle roll cfg root_turn t (by simpa using h2)]
        exact stopStep_preserves_childSum R shuffle roll cfg root_turn t hAll
    · rw [searchIteration_of_terminal R shuffle roll cfg root_turn t (by simpa using h1)]
      exact stopStep_preserves_childSum R shuffle roll cfg root_turn t hAll

/-- A search iteration preserves "visits dominate the children's visit sum". -/
theorem searchIteration_preserves_childSum (t : MCTSNode Pos Move)
    (hAll : AllTree (fun s => (s.children.map MCTSNode.visits).sum ≤ s.visits) t) :
    AllTree (fun s => (s.children.map MCTSNode.visits).sum ≤ s.visits)
      (searchIteration R shuffle roll cfg root_turn t).1 :=
  searchIteration_preserves_childSum_aux R shuffle roll cfg root_turn
    (sizeOf t + 1) t (by omega) hAll

end IterationPreservation

section LoopLemmas

variable {Pos Move : Type}
variable (R : Rules Pos Move) (shuffle : List Move → List Move) (roll : Pos → Pos)
variable (cfg : MCTSConfig) (root_turn : Bool)

theorem searchLoop_eq_iterate_aux :
    ∀ (fuel : ℕ) (run : ℤ) (t : MCTSNode Pos Move), run ≤ cfg.num_simulations →
      (cfg.num_simulations - run).toNat = fuel →
      searchLoop R shuffle roll cfg root_turn t run =
        ((searchStep R shuffle roll cfg root_turn)^[fuel] t, cfg.num_simulations) := by
  intro fuel
  induction fuel with
  | zero =>
    intro run t hle hfuel
    have hrun : run = cfg.num_simulations := by omega
    rw [searchLoop_stop R shuffle roll cfg root_turn t run (by omega), hrun]
    rfl
  | succ fuel ih =>
    intro run t hle hfuel
    have hlt : run < cfg.num_simulations := by omega
    rw [searchLoop_go R shuffle roll cfg root_turn t run hlt]
    rw [ih (run + 1) (searchIteration R shuffle roll cfg root_turn t).1 (by omega) (by omega)]
    rw [Function.iterate_succ_apply]
    rfl

/-- The while loop started at counter 0 runs the iteration exactly
`num_simulations.toNat` times and ends with the counter at `num_simulations`. -/
theorem searchLoop_eq_iterate (t : MCTSNode Pos Move) (h : 0 ≤ cfg.num_simulations) :
    searchLoop R shuffle roll cfg root_turn t 0 =
      ((searchStep R shuffle roll cfg root_turn)^[cfg.num_simulations.toNat] t,
        cfg.num_simulations) :=
  searchLoop_eq_iterate_aux R shuffle roll cfg root_turn
    cfg.num_simulations.toNat 0 t h (by omega)

/-- With a non-positive budget the loop does not run at all. -/
theorem searchLoop_of_nonpos (t : MCTSNode Pos Move) (h : cfg.num_simulations ≤ 0) :
    searchLoop R shuffle roll cfg root_turn t 0 = (t, 0) :=
  searchLoop_stop R shuffle roll cfg root_turn t 0 (by omega)

/-- A tree-wide invariant preserved by one iteration is preserved by any number
of iterations. -/
theorem allTree_iterate {P : MCTSNode Pos Move → Prop}
    (hstep : ∀ t, AllTree P t →
      AllTree P (searchIteration R shuffle roll cfg root_turn t).1) :
    ∀ (n : ℕ) (t0 : MCTSNode Pos Move), AllTree P t0 →
      AllTree P ((searchStep R shuffle roll cfg root_turn)^[n] t0) := by
  intro n
  induction n with
  | zero => intro t0 h; exact h
  | succ n ih =>
    intro t0 h
    rw [Function.iterate_succ_apply']
    exact hstep _ (ih t0 h)

/-- A fresh node satisfies any tree-wide invariant its own data satisfies. -/
theorem allTree_create {P : MCTSNode Pos Move → Prop} (b : Pos) (mv : Option Move) (dp : ℕ)
    (hP : P (MCTSNode.create R shuffle b mv dp)) :
    AllTree P (MCTSNode.create R shuffle b mv dp) :=
  allTree_of_no_children (MCTSNode.create_children R shuffle b mv dp) hP

/-- One iteration adds one visit at the node it is run on. -/
theorem searchStep_visits (t : MCTSNode Pos Move) :
    (searchStep R shuffle roll cfg root_turn t).visits = t.visits + 1 :=
  searchIteration_visits R shuffle roll cfg root_turn t

/-- Each completed iteration adds exactly one visit at the root. -/
theorem iterate_visits (t0 : MCTSNode Pos Move) :
    ∀ n : ℕ, ((searchStep R shuffle roll cfg root_turn)^[n] t0).visits = t0.visits + n := by
  intro n
  induction n with
  | zero => rfl
  | succ n ih =>
    rw [Function.iterate_succ_apply', searchStep_visits, ih]
    omega

end LoopLemmas

section ChildMonotone

variable {Pos Move : Type}
variable (R : Rules Pos Move) (shuffle : List Move → List Move) (roll : Pos → Pos)
variable (cfg : MCTSConfig) (root_turn : Bool)

/-- The Expand/Simulate/Backpropagate tail keeps every existing child at its
index and never decreases its visit count. -/
theorem stopStep_children_get (t : MCTSNode Pos Move) (i : ℕ) (c : MCTSNode Pos Move)
    (hg : t.children[i]? = some c) :
    ∃ c', (stopStep R shuffle roll cfg root_turn t).1.children[i]? = some c' ∧
      c.visits ≤ c'.visits := by
  rcases h : t.unexplored_moves with _ | ⟨m, rest⟩
  · rw [stopStep_of_no_moves R shuffle roll cfg root_turn t h]
    exact ⟨c, by simpa using hg, le_refl _⟩
  · by_cases hd : cfg.max_simulation_depth ≤ (t.depth : ℤ)
    · rw [stopStep_of_depth R shuffle roll cfg root_turn t m rest h hd]
      exact ⟨c, by simpa using hg, le_refl _⟩
    · rw [stopStep_of_expand R shuffle roll cfg root_turn t m rest h hd]
      have hlt : i < t.children.length := (List.getElem?_eq_some_iff.1 hg).1
      refine ⟨c, ?_, le_refl _⟩
      simp only [MCTSNode.children_mk]
      rw [List.getElem?_append_left hlt]
      exact hg

/-- A search iteration keeps every existing root child at its index and never
decreases its visit count. -/
theorem searchStep_children_get (t : MCTSNode Pos Move) (i : ℕ) (c : MCTSNode Pos Move)
    (hg : t.children[i]? = some c) :
    ∃ c', (searchStep R shuffle roll cfg root_turn t).children[i]? = some c' ∧
      c.visits ≤ c'.visits := by
  show ∃ c', (searchIteration R shuffle roll cfg root_turn t).1.children[i]? = some c' ∧
    c.visits ≤ c'.visits
  by_cases h1 : t.is_terminal R = false
  · by_cases h2 : t.is_fully_expanded = true
    · rcases hMax : (t.children.enumFrom 0).argmax
        (fun p => p.2.ucb1_value cfg.exploration_constant t.visits) with _ | ic
      · rw [searchIteration_of_none R shuffle roll cfg root_turn t h1 h2 hMax]
        exact stopStep_children_get R shuffle roll cfg root_turn t i c hg
      · rw [searchIteration_descend R shuffle roll cfg root_turn t h1 h2 ic hMax]
        have hget := argmax_enumFrom_getElem _ t.children ic hMax
        by_cases hi : ic.1 = i
        · subst hi
          have hc : c = ic.2 := by
            rw [hg] at hget
            exact (Option.some.injEq _ _ ▸ hget : _) ▸ rfl
          have hlt : ic.1 < t.children.length := (List.getElem?_eq_some_iff.1 hg).1
          refine ⟨(searchIteration R shuffle roll cfg root_turn ic.2).1, ?_, ?_⟩
          · simp only [MCTSNode.children_mk]
            exact List.getElem?_set_self hlt
          · rw [searchIteration_visits R shuffle roll cfg root_turn ic.2, hc]
            omega
        · refine ⟨c, ?_, le_refl _⟩
          simp only [MCTSNode.children_mk]
          rw [List.getElem?_set_ne hi]
          exact hg
    · rw [searchIteration_of_not_fully R shuffle roll cfg root_turn t (by simpa using h2)]
      exact stopStep_children_get R shuffle roll cfg root_turn t i c hg
  · rw [searchIteration_of_terminal R shuffle roll cfg root_turn t (by simpa using h1)]
    exact stopStep_children_get R shuffle roll cfg root_turn t i c hg

/-- Iterating the search keeps every existing child at its index with a
non-decreasing visit count. -/
theorem iterate_children_get (t0 : MCTSNode Pos Move) (i : ℕ) (c : MCTSNode Pos Move)
    (hg : t0.children[i]? = some c) :
    ∀ n : ℕ, ∃ c', ((searchStep R shuffle roll cfg root_turn)^[n] t0).children[i]? = some c' ∧
      c.visits ≤ c'.visits := by
  intro n
  induction n with
  | zero => exact ⟨c, hg, le_refl _⟩
  | succ n ih =>
    obtain ⟨c', hc', hle⟩ := ih
    rw [Function.iterate_succ_apply']
    obtain ⟨c'', hc'', hle'⟩ :=
      searchStep_children_get R shuffle roll cfg root_turn _ i c' hc'
    exact ⟨c'', hc'', le_trans hle hle'⟩

/-- When the root is non-terminal with a non-empty shuffled move list and the
depth cap allows, the first iteration expands a child that immediately receives
one visit. -/
theorem searchStep_create_expands (board : Pos)
    (hterm : R.isGameOver board = false)
    (hne : shuffle (R.legalMoves board) ≠ [])
    (hd : 1 ≤ cfg.max_simulation_depth) :
    ∃ c, (searchStep R shuffle roll cfg root_turn
        (MCTSNode.create R shuffle board none 0)).children[0]? = some c ∧
      c.visits = 1 := by
  obtain ⟨m, rest, hmr⟩ : ∃ m rest, shuffle (R.legalMoves board) = m :: rest := by
    rcases h : shuffle (R.legalMoves board) with _ | ⟨m, rest⟩
    · exact absurd h hne
    · exact ⟨m, rest, rfl⟩
  have hunex : (MCTSNode.create R shuffle board none 0).unexplored_moves = m :: rest := by
    rw [MCTSNode.create_unexplored_moves, hmr]
  have h2 : (MCTSNode.create R shuffle board none 0).is_fully_expanded = false := by
    simp [MCTSNode.is_fully_expanded, hunex]
  show ∃ c, (searchIteration R shuffle roll cfg root_turn
      (MCTSNode.create R shuffle board none 0)).1.children[0]? = some c ∧ c.visits = 1
  rw [searchIteration_of_not_fully R shuffle roll cfg root_turn _ h2]
  rw [stopStep_of_expand R shuffle roll cfg root_turn _ m rest hunex
    (by rw [MCTSNode.create_depth]; omega)]
  dsimp only
  simp only [MCTSNode.children_mk, MCTSNode.create_children, List.nil_append]
  refine ⟨_, rfl, ?_⟩
  simp [MCTSNode.update_visits, MCTSNode.create_visits]

end ChildMonotone

section StuckLemmas

variable {Pos Move : Type}
variable (R : Rules Pos Move) (shuffle : List Move → List Move) (roll : Pos → Pos)
variable (cfg : MCTSConfig) (root_turn : Bool)

/-- On a node that cannot expand (no unexplored move, or depth-capped) the tail
of an iteration only bumps the node's own statistics. -/
theorem stopStep_stuck (t : MCTSNode Pos Move)
    (hst : t.unexplored_moves = [] ∨ cfg.max_simulation_depth ≤ (t.depth : ℤ)) :
    stopStep R shuffle roll cfg root_turn t =
      (t.update (simulate R roll root_turn t.board), simulate R roll root_turn t.board) := by
  rcases h : t.unexplored_moves with _ | ⟨m, rest⟩
  · exact stopStep_of_no_moves R shuffle roll cfg root_turn t h
  · rcases hst with hst | hst
    · rw [h] at hst; cases hst
    · exact stopStep_of_depth R shuffle roll cfg root_turn t m rest h hst

/-- A whole search iteration on a childless node that cannot expand only bumps
the node's own statistics. -/
theorem searchStep_stuck (t : MCTSNode Pos Move) (hch : t.children = [])
    (hst : t.unexplored_moves = [] ∨ cfg.max_simulation_depth ≤ (t.depth : ℤ)) :
    searchStep R shuffle roll cfg root_turn t =
      t.update (simulate R roll root_turn t.board) := by
  show (searchIteration R shuffle roll cfg root_turn t).1 = _
  by_cases h1 : t.is_terminal R = false
  · by_cases h2 : t.is_fully_expanded = true
    · have hMax : (t.children.enumFrom 0).argmax
          (fun p => p.2.ucb1_value cfg.exploration_constant t.visits) = none := by
        rw [hch]
        rfl
      rw [searchIteration_of_none R shuffle roll cfg root_turn t h1 h2 hMax]
      rw [stopStep_stuck R shuffle roll cfg root_turn t hst]
    · rw [searchIteration_of_not_fully R shuffle roll cfg root_turn t (by simpa using h2)]
      rw [stopStep_stuck R shuffle roll cfg root_turn t hst]
  · rw [searchIteration_of_terminal R shuffle roll cfg root_turn t (by simpa using h1)]
    rw [stopStep_stuck R shuffle roll cfg root_turn t hst]

/-- Iterating the search from a childless node that cannot expand leaves the
tree childless with the same board, moves and depth, adding one visit per
iteration. -/
theorem iterate_stuck (t0 : MCTSNode Pos Move) (hch : t0.children = [])
    (hst : t0.unexplored_moves = [] ∨ cfg.max_simulation_depth ≤ (t0.depth : ℤ)) :
    ∀ n : ℕ,
      ((searchStep R shuffle roll cfg root_turn)^[n] t0).children = [] ∧
      ((searchStep R shuffle roll cfg root_turn)^[n] t0).visits = t0.visits + n ∧
      ((searchStep R shuffle roll cfg root_turn)^[n] t0).board = t0.board ∧
      ((searchStep R shuffle roll cfg root_turn)^[n] t0).unexplored_moves =
        t0.unexplored_moves ∧
      ((searchStep R shuffle roll cfg root_turn)^[n] t0).depth = t0.depth := by
  intro n
  induction n with
  | zero => exact ⟨hch, rfl, rfl, rfl, rfl⟩
  | succ n ih =>
    obtain ⟨ih1, ih2, ih3, ih4, ih5⟩ := ih
    have hst' : ((searchStep R shuffle roll cfg root_turn)^[n] t0).unexplored_moves = [] ∨
        cfg.max_simulation_depth ≤
          (((searchStep R shuffle roll cfg root_turn)^[n] t0).depth : ℤ) := by
      rcases hst with hst | hst
      · exact Or.inl (by rw [ih4, hst])
      · exact Or.inr (by rw [ih5]; exact hst)
    rw [Function.iterate_succ_apply',
      searchStep_stuck R shuffle roll cfg root_turn _ ih1 hst']
    refine ⟨?_, ?_, ?_, ?_, ?_⟩
    · rw [MCTSNode.update_children, ih1]
    · rw [MCTSNode.update_visits, ih2]
      omega
    · rw [MCTSNode.update_board, ih3]
    · rw [MCTSNode.update_unexplored_moves, ih4]
    · rw [MCTSNode.update_depth, ih5]

end StuckLemmas

section SearchUnfold

variable {Pos Move : Type}
variable (R : Rules Pos Move) (shuffle : List Move → List Move) (roll : Pos → Pos)
variable (cfg : MCTSConfig) (board : Pos)

/-- If the loop leaves the root childless, `search` raises (Python `ValueError`
from `max` on an empty sequence). -/
theorem search_error_of_no_children
    (h : (searchLoop R shuffle roll cfg (R.turn board)
      (MCTSNode.create R shuffle board none 0) 0).1.children = []) :
    ChessMCTS.search R shuffle roll cfg board = Except.error SearchError.emptyChildren := by
  unfold ChessMCTS.search
  have hm : (searchLoop R shuffle roll cfg (R.turn board)
      (MCTSNode.create R shuffle board none 0) 0).1.children.argmax MCTSNode.visits = none := by
    rw [h]
    rfl
  dsimp only
  rw [hm]

/-- With a positive budget and depth cap, a non-terminal root whose shuffled
move list is non-empty ends the loop with at least one child, the most-visited
child has at least one visit, and `search` does not raise. -/
theorem search_ok_of (hb : 1 ≤ cfg.num_simulations) (hd : 1 ≤ cfg.max_simulation_depth)
    (hterm : R.isGameOver board = false) (hne : shuffle (R.legalMoves board) ≠ []) :
    (searchLoop R shuffle roll cfg (R.turn board)
        (MCTSNode.create R shuffle board none 0) 0).1.children ≠ [] ∧
    (∀ bc, (searchLoop R shuffle roll cfg (R.turn board)
        (MCTSNode.create R shuffle board none 0) 0).1.children.argmax MCTSNode.visits =
          some bc → 1 ≤ bc.visits) ∧
    (∀ e, ChessMCTS.search R shuffle roll cfg board ≠ Except.error e) := by
  have h0 : 0 ≤ cfg.num_simulations := by omega
  obtain ⟨k, hk⟩ : ∃ k, cfg.num_simulations.toNat = k + 1 :=
    ⟨cfg.num_simulations.toNat - 1, by omega⟩
  have hloop := searchLoop_eq_iterate R shuffle roll cfg (R.turn board)
    (MCTSNode.create R shuffle board none 0) h0
  obtain ⟨c, hc, hc1⟩ := searchStep_create_expands R shuffle roll cfg (R.turn board)
    board hterm hne hd
  obtain ⟨c', hc', hle⟩ := iterate_children_get R shuffle roll cfg (R.turn board)
    (searchStep R shuffle roll cfg (R.turn board) (MCTSNode.create R shuffle board none 0))
    0 c hc k
  have hroot : (searchLoop R shuffle roll cfg (R.turn board)
      (MCTSNode.create R shuffle board none 0) 0).1 =
      (searchStep R shuffle roll cfg (R.turn board))^[cfg.num_simulations.toNat]
        (MCTSNode.create R shuffle board none 0) := by
    rw [hloop]
  have hget : (searchLoop R shuffle roll cfg (R.turn board)
      (MCTSNode.create R shuffle board none 0) 0).1.children[0]? = some c' := by
    rw [hroot, hk, Function.iterate_succ_apply]
    exact hc'
  have hne' : (searchLoop R shuffle roll cfg (R.turn board)
      (MCTSNode.create R shuffle board none 0) 0).1.children ≠ [] := by
    intro heq
    rw [heq] at hget
    simp at hget
  have hbc : ∀ bc, (searchLoop R shuffle roll cfg (R.turn board)
      (MCTSNode.create R shuffle board none 0) 0).1.children.argmax MCTSNode.visits =
        some bc → 1 ≤ bc.visits := by
    intro bc hbcm
    have hmem := List.getElem?_mem hget
    have := List.le_of_mem_argmax hmem hbcm
    omega
  refine ⟨hne', hbc, ?_⟩
  intro e
  unfold ChessMCTS.search
  dsimp only
  split
  · rename_i heq
    exact absurd (List.argmax_eq_none.1 heq) hne'
  · rename_i bc heq
    have h1 := hbc bc heq
    have hz : ¬ bc.visits = 0 := by omega
    rw [if_neg hz]
    simp

end SearchUnfold

section ToyRuns

/-- One search iteration on the toy root expands move 3 and backpropagates the
neutral rollout score. -/
theorem toy_step (cfg : MCTSConfig) (rt : Bool) (hd : 1 ≤ cfg.max_simulation_depth) :
    (searchIteration ToyRules id id cfg rt toyRoot).1 = toyRoot1 := by
  have hunex : toyRoot.unexplored_moves = 3 :: [4] := rfl
  have h2 : toyRoot.is_fully_expanded = false := rfl
  rw [searchIteration_of_not_fully ToyRules id id cfg rt toyRoot h2]
  rw [stopStep_of_expand ToyRules id id cfg rt toyRoot 3 [4] hunex
    (by simp [toyRoot, MCTSNode.create_depth]; omega)]
  dsimp only
  simp [toyRoot, toyRoot1, toyChild, MCTSNode.create, MCTSNode.update, ToyRules, simulate,
    evaluate_position]
  norm_num

/-- The full toy loop with budget 1 and non-positive exploration constant. -/
theorem toy_loop : searchLoop ToyRules id id cfgNegExplore true toyRoot 0 = (toyRoot1, 1) := by
  have h1 : (0 : ℤ) < cfgNegExplore.num_simulations := by norm_num [cfgNegExplore]
  rw [searchLoop_go ToyRules id id cfgNegExplore true toyRoot 0 h1]
  rw [toy_step cfgNegExplore true (by norm_num [cfgNegExplore])]
  norm_num
  rw [searchLoop_stop ToyRules id id cfgNegExplore true toyRoot1 1
    (by norm_num [cfgNegExplore])]

end ToyRuns

/-- C1 counterexample: the claim "Search returns a no-move result rather than
choosing arbitrarily or failing when the root has zero children after the loop"
is false on the code: with `iteration_budget = 0` on the non-terminal toy root,
`search` fails with the `ValueError` raised by `max()` over the empty children
sequence (line 371), it does not return a no-move result. -/
theorem claim_C1_counterexample :
    ChessMCTS.search ToyRules id id cfgZeroBudget 0 =
      Except.error SearchError.emptyChildren := by
  apply search_error_of_no_children
  rw [searchLoop_of_nonpos ToyRules id id cfgZeroBudget (ToyRules.turn 0)
    (MCTSNode.create ToyRules id 0 none 0) (by norm_num [cfgZeroBudget])]
  rfl

/-- C1 (amended): for every call to `Search` where the root has zero children
after the iteration loop, `search` raises the `ValueError` of `max()` over an
empty sequence (modelled as `SearchError.emptyChildren`) instead of returning a
move — it fails rather than returning a "no move" result. -/
theorem claim_C1 {Pos Move : Type} (R : Rules Pos Move) (shuffle : List Move → List Move)
    (roll : Pos → Pos) (cfg : MCTSConfig) (board : Pos)
    (h : (searchLoop R shuffle roll cfg (R.turn board)
      (MCTSNode.create R shuffle board none 0) 0).1.children = []) :
    ChessMCTS.search R shuffle roll cfg board = Except.error SearchError.emptyChildren :=
  search_error_of_no_children R shuffle roll cfg board h

/-- C1 witness: the childless-root hypothesis is satisfiable (budget 0 on the
toy game) and the amended conclusion follows. -/
theorem claim_C1_witness :
    (searchLoop ToyRules id id cfgZeroBudget (ToyRules.turn 0)
      (MCTSNode.create ToyRules id 0 none 0) 0).1.children = [] ∧
    ChessMCTS.search ToyRules id id cfgZeroBudget 0 =
      Except.error SearchError.emptyChildren := by
  have h : (searchLoop ToyRules id id cfgZeroBudget (ToyRules.turn 0)
      (MCTSNode.create ToyRules id 0 none 0) 0).1.children = [] := by
    rw [searchLoop_of_nonpos ToyRules id id cfgZeroBudget (ToyRules.turn 0)
      (MCTSNode.create ToyRules id 0 none 0) (by norm_num [cfgZeroBudget])]
    rfl
  exact ⟨h, claim_C1 ToyRules id id cfgZeroBudget 0 h⟩

/-- C2 counterexample: the claim "for a terminal root, Search returns no-move
with statistics root_visits = 0 and children_count = 0" is false on the code: on
the terminal toy position 5 with budget 1, `search` raises the empty-children
`ValueError` instead of returning, and after the loop the root has 1 visit (one
backpropagation per iteration), not 0. -/
theorem claim_C2_counterexample :
    ChessMCTS.search ToyRules id id cfgUnit 5 = Except.error SearchError.emptyChildren ∧
    (searchLoop ToyRules id id cfgUnit (ToyRules.turn 5)
      (MCTSNode.create ToyRules id 5 none 0) 0).1.visits = 1 := by
  have hch : (MCTSNode.create ToyRules id 5 none 0).children = [] := rfl
  have hst : (MCTSNode.create ToyRules id 5 none 0).unexplored_moves = [] ∨
      cfgUnit.max_simulation_depth ≤
        (((MCTSNode.create ToyRules id 5 none 0)).depth : ℤ) := Or.inl rfl
  have hloop := searchLoop_eq_iterate ToyRules id id cfgUnit (ToyRules.turn 5)
    (MCTSNode.create ToyRules id 5 none 0) (by norm_num [cfgUnit])
  have hstuck := iterate_stuck ToyRules id id cfgUnit (ToyRules.turn 5)
    (MCTSNode.create ToyRules id 5 none 0) hch hst cfgUnit.num_simulations.toNat
  constructor
  · apply search_error_of_no_children
    rw [hloop]
    exact hstuck.1
  · rw [hloop]
    have h2 := hstuck.2.1
    rw [h2, MCTSNode.create_visits]
    norm_num [cfgUnit]

/-- C2 (amended): for a terminal `rootPosition` with no legal moves, every one of
the `iteration_budget` iterations selects the root, expands nothing and
backpropagates the rollout score at the root, so after the loop the root has
`iteration_budget` visits (not 0) and 0 children, and `Search` then raises the
empty-children `ValueError` instead of returning a "no move" result with a
statistics record. -/
theorem claim_C2 {Pos Move : Type} (R : Rules Pos Move) (shuffle : List Move → List Move)
    (roll : Pos → Pos) (cfg : MCTSConfig) (board : Pos)
    (hterm : R.isGameOver board = true) (hlm : R.legalMoves board = [])
    (hsh : shuffle [] = []) (hb : 0 ≤ cfg.num_simulations) :
    (searchLoop R shuffle roll cfg (R.turn board)
      (MCTSNode.create R shuffle board none 0) 0).1.children = [] ∧
    (searchLoop R shuffle roll cfg (R.turn board)
      (MCTSNode.create R shuffle board none 0) 0).1.visits = cfg.num_simulations.toNat ∧
    ChessMCTS.search R shuffle roll cfg board = Except.error SearchError.emptyChildren := by
  have hch : (MCTSNode.create R shuffle board none 0).children = [] :=
    MCTSNode.create_children R shuffle board none 0
  have hun : (MCTSNode.create R shuffle board none 0).unexplored_moves = [] := by
    rw [MCTSNode.create_unexplored_moves, hlm, hsh]
  have hloop := searchLoop_eq_iterate R shuffle roll cfg (R.turn board)
    (MCTSNode.create R shuffle board none 0) hb
  have hstuck := iterate_stuck R shuffle roll cfg (R.turn board)
    (MCTSNode.create R shuffle board none 0) hch (Or.inl hun) cfg.num_simulations.toNat
  refine ⟨?_, ?_, ?_⟩
  · rw [hloop]
    exact hstuck.1
  · rw [hloop]
    rw [hstuck.2.1, MCTSNode.create_visits]
    omega
  · apply search_error_of_no_children
    rw [hloop]
    exact hstuck.1

/-- C2 witness: the hypotheses are satisfiable (terminal toy position 5, budget
2) and the amended conclusions follow. -/
theorem claim_C2_witness :
    ToyRules.isGameOver 5 = true ∧ ToyRules.legalMoves 5 = [] ∧
    ChessMCTS.search ToyRules id id ⟨1, 2, 1⟩ 5 = Except.error SearchError.emptyChildren :=
  ⟨rfl, rfl,
    (claim_C2 ToyRules id id ⟨1, 2, 1⟩ 5 rfl rfl rfl (by norm_num)).2.2⟩

/-- C3 counterexample: the claim "non-positive iteration_budget, max_tree_depth
or exploration_constant fails fast with an InvalidConfig error before any search
work begins" is false on the code: with `exploration_constant = -1` (and budget
1, depth 1) the search on the toy game runs to completion and returns move 3
with full statistics — no validation or failure of any kind occurs. -/
theorem claim_C3_counterexample :
    ChessMCTS.search ToyRules id id cfgNegExplore 0 =
      Except.ok (some 3, ⟨1, 2, 1, 1, 1, 1/2⟩) := by
  unfold ChessMCTS.search
  have hrt : ToyRules.turn 0 = true := rfl
  have hcreate : MCTSNode.create ToyRules id 0 none 0 = toyRoot := rfl
  rw [hrt, hcreate, toy_loop]
  dsimp only
  have hm : toyRoot1.children.argmax MCTSNode.visits = some toyChild := rfl
  rw [hm]
  norm_num [toyRoot1, toyChild, count_nodes, count_nodes_list, MCTSNode.visits,
    MCTSNode.wins, MCTSNode.move]

/-- C3 (amended): `search` performs no validation of the config whatsoever —
there is no fail-fast InvalidConfig check.  A non-positive
`exploration_constant` is accepted and (on otherwise workable input) the search
completes and returns a move; a non-positive `iteration_budget` makes the loop
run zero times, after which `search` fails with the empty-children error (not an
InvalidConfig error, and only after the loop); a non-positive `max_tree_depth`
suppresses every expansion, after which `search` likewise fails with the
empty-children error. -/
theorem claim_C3 {Pos Move : Type} (R : Rules Pos Move) (shuffle : List Move → List Move)
    (roll : Pos → Pos) (cfg : MCTSConfig) (board : Pos) :
    (cfg.exploration_constant ≤ 0 → 1 ≤ cfg.num_simulations →
      1 ≤ cfg.max_simulation_depth → R.isGameOver board = false →
      shuffle (R.legalMoves board) ≠ [] →
      ∀ e, ChessMCTS.search R shuffle roll cfg board ≠ Except.error e) ∧
    (cfg.num_simulations ≤ 0 →
      ChessMCTS.search R shuffle roll cfg board = Except.error SearchError.emptyChildren) ∧
    (cfg.max_simulation_depth ≤ 0 → 0 ≤ cfg.num_simulations →
      ChessMCTS.search R shuffle roll cfg board = Except.error SearchError.emptyChildren) := by
  refine ⟨?_, ?_, ?_⟩
  · intro _ hb hd hterm hne
    exact (search_ok_of R shuffle roll cfg board hb hd hterm hne).2.2
  · intro hb
    apply search_error_of_no_children
    rw [searchLoop_of_nonpos R shuffle roll cfg (R.turn board)
      (MCTSNode.create R shuffle board none 0) hb]
    exact MCTSNode.create_children R shuffle board none 0
  · intro hd hb
    apply search_error_of_no_children
    rw [searchLoop_eq_iterate R shuffle roll cfg (R.turn board)
      (MCTSNode.create R shuffle board none 0) hb]
    exact (iterate_stuck R shuffle roll cfg (R.turn board)
      (MCTSNode.create R shuffle board none 0)
      (MCTSNode.create_children R shuffle board none 0)
      (Or.inr (by rw [MCTSNode.create_depth]; exact_mod_cast hd))
      cfg.num_simulations.toNat).1

/-- C3 witness: the three amended cases are satisfiable: a negative exploration
constant still returns a move; budget 0 and depth 0 both end in the
empty-children error. -/
theorem claim_C3_witness :
    cfgNegExplore.exploration_constant ≤ 0 ∧
    (∀ e, ChessMCTS.search ToyRules id id cfgNegExplore 0 ≠ Except.error e) ∧
    cfgZeroBudget.num_simulations ≤ 0 ∧
    ChessMCTS.search ToyRules id id cfgZeroBudget 0 = Except.error SearchError.emptyChildren ∧
    cfgZeroDepth.max_simulation_depth ≤ 0 ∧
    ChessMCTS.search ToyRules id id cfgZeroDepth 0 = Except.error SearchError.emptyChildren := by
  refine ⟨by norm_num [cfgNegExplore], ?_, by norm_num [cfgZeroBudget], ?_,
    by norm_num [cfgZeroDepth], ?_⟩
  · exact (claim_C3 ToyRules id id cfgNegExplore 0).1 (by norm_num [cfgNegExplore])
      (by norm_num [cfgNegExplore]) (by norm_num [cfgNegExplore]) rfl (by simp [ToyRules])
  · exact (claim_C3 ToyRules id id cfgZeroBudget 0).2.1 (by norm_num [cfgZeroBudget])
  · exact (claim_C3 ToyRules id id cfgZeroDepth 0).2.2 (by norm_num [cfgZeroDepth])
      (by norm_num [cfgZeroDepth])

/-- C4: for a node with a (non-null) parent, the UCB1 value is `+∞` exactly when
`visit_count = 0`, and otherwise equals
`win_score/visit_count + c · sqrt(ln(parent_visits)/visit_count)`; consequently
a parent with one child visited at least once and one child never visited (in
either order) selects the never-visited child. -/
theorem claim_C4 {Pos Move : Type} :
    ∀ (t a b : MCTSNode Pos Move) (c : ℝ) (pv : ℕ),
    (t.visits = 0 → t.ucb1_value c pv = ⊤) ∧
    (t.visits ≠ 0 → t.ucb1_value c pv =
      (((t.wins : ℝ) / (t.visits : ℝ) +
        c * Real.sqrt (Real.log (pv : ℝ) / (t.visits : ℝ)) : ℝ) : WithTop ℝ)) ∧
    (t.children = [a, b] → 1 ≤ a.visits → b.visits = 0 →
      t.select_best_child c = some b) ∧
    (t.children = [b, a] → 1 ≤ a.visits → b.visits = 0 →
      t.select_best_child c = some b) := by
  intro t a b c pv
  refine ⟨fun h => ?_, fun h => ?_, fun hch ha hb => ?_, fun hch ha hb => ?_⟩
  · rw [MCTSNode.ucb1_value, if_pos h]
  · rw [MCTSNode.ucb1_value, if_neg h]
  · have hka : a.ucb1_value c t.visits =
        (((a.wins : ℝ) / (a.visits : ℝ) +
          c * Real.sqrt (Real.log (t.visits : ℝ) / (a.visits : ℝ)) : ℝ) : WithTop ℝ) := by
      rw [MCTSNode.ucb1_value, if_neg (by omega)]
    have hkb : b.ucb1_value c t.visits = ⊤ := by
      rw [MCTSNode.ucb1_value, if_pos hb]
    rw [MCTSNode.select_best_child, hch]
    rw [List.argmax_cons, List.argmax_cons, List.argmax_nil]
    dsimp only
    rw [hka, hkb]
    rw [if_pos (WithTop.coe_lt_top _)]
  · have hka : a.ucb1_value c t.visits =
        (((a.wins : ℝ) / (a.visits : ℝ) +
          c * Real.sqrt (Real.log (t.visits : ℝ) / (a.visits : ℝ)) : ℝ) : WithTop ℝ) := by
      rw [MCTSNode.ucb1_value, if_neg (by omega)]
    have hkb : b.ucb1_value c t.visits = ⊤ := by
      rw [MCTSNode.ucb1_value, if_pos hb]
    rw [MCTSNode.select_best_child, hch]
    rw [List.argmax_cons, List.argmax_cons, List.argmax_nil]
    dsimp only
    rw [hka, hkb]
    rw [if_neg (by exact not_top_lt)]

/-- C4 witness: concrete once-visited and never-visited siblings; the
never-visited child scores `⊤` and is selected in both child orders. -/
theorem claim_C4_witness :
    nodeFresh.visits = 0 ∧ nodeFresh.ucb1_value 1 2 = ⊤ ∧
    nodeParent.children = [nodeVisited, nodeFresh] ∧
    nodeParent.select_best_child 1 = some nodeFresh ∧
    nodeParentRev.children = [nodeFresh, nodeVisited] ∧
    nodeParentRev.select_best_child 1 = some nodeFresh := by
  refine ⟨rfl, (claim_C4 nodeFresh nodeVisited nodeFresh 1 2).1 rfl, rfl, ?_, rfl, ?_⟩
  · exact (claim_C4 nodeParent nodeVisited nodeFresh 1 0).2.2.1 rfl (le_refl 1) rfl
  · exact (claim_C4 nodeParentRev nodeVisited nodeFresh 1 0).2.2.2 rfl (le_refl 1) rfl

/-- C5: a rollout scores the final position exactly by `_evaluate_position` from
the fixed `for_side` perspective: 0 for a checkmate with `for_side` to move, 1
for a checkmate with the other side to move, 1/2 for stalemate or insufficient
material, 1/2 for any other (non-terminal) stop, and the value is always in
`[0, 1]`. -/
theorem claim_C5 {Pos Move : Type} :
    ∀ (R : Rules Pos Move) (roll : Pos → Pos) (board_turn : Bool) (p : Pos),
    simulate R roll board_turn p = evaluate_position R board_turn (roll p) ∧
    (R.isCheckmate p = true → R.turn p = board_turn →
      evaluate_position R board_turn p = 0) ∧
    (R.isCheckmate p = true → R.turn p ≠ board_turn →
      evaluate_position R board_turn p = 1) ∧
    (R.isCheckmate p = false →
      (R.isStalemate p || R.isInsufficientMaterial p) = true →
      evaluate_position R board_turn p = 1 / 2) ∧
    (R.isCheckmate p = false →
      (R.isStalemate p || R.isInsufficientMaterial p) = false →
      evaluate_position R board_turn p = 1 / 2) ∧
    0 ≤ evaluate_position R board_turn p ∧ evaluate_position R board_turn p ≤ 1 := by
  intro R roll board_turn p
  refine ⟨rfl, fun hc ht => ?_, fun hc ht => ?_, fun hc hs => ?_, fun hc hs => ?_,
    evaluate_position_bounds R board_turn p⟩
  · rw [evaluate_position, if_pos hc, if_pos ht]
  · rw [evaluate_position, if_pos hc, if_neg ht]
  · rw [evaluate_position, if_neg (by simp [hc]), if_pos hs]
  · rw [evaluate_position, if_neg (by simp [hc]), if_neg (by simp [hs])]

/-- C5 witness: a rules engine exercising all four scoring branches. -/
theorem claim_C5_witness :
    ToyEval.isCheckmate 1 = true ∧ ToyEval.turn 1 = true ∧
    evaluate_position ToyEval true 1 = 0 ∧
    ToyEval.isCheckmate 2 = true ∧ ToyEval.turn 2 ≠ true ∧
    evaluate_position ToyEval true 2 = 1 ∧
    ToyEval.isCheckmate 3 = false ∧
    (ToyEval.isStalemate 3 || ToyEval.isInsufficientMaterial 3) = true ∧
    evaluate_position ToyEval true 3 = 1 / 2 ∧
    ToyEval.isCheckmate 4 = false ∧
    (ToyEval.isStalemate 4 || ToyEval.isInsufficientMaterial 4) = false ∧
    evaluate_position ToyEval true 4 = 1 / 2 := by
  refine ⟨by decide, by decide, (claim_C5 ToyEval id true 1).2.1 (by decide) (by decide),
    by decide, by decide, (claim_C5 ToyEval id true 2).2.2.1 (by decide) (by decide),
    by decide, by decide, (claim_C5 ToyEval id true 3).2.2.2.1 (by decide) (by decide),
    by decide, by decide, (claim_C5 ToyEval id true 4).2.2.2.2.1 (by decide) (by decide)⟩

/-- C6: the Select-Expand-Simulate-Backpropagate loop runs exactly
`iteration_budget` times (the loop equals `num_simulations.toNat` iterations and
the final counter equals the budget), and after any number `n` of completed
iterations the root created by `search` has `visit_count = n` — every iteration
backpropagates exactly once to the root. -/
theorem claim_C6 {Pos Move : Type} (R : Rules Pos Move) (shuffle : List Move → List Move)
    (roll : Pos → Pos) (cfg : MCTSConfig) (root_turn : Bool) (t : MCTSNode Pos Move)
    (board : Pos) :
    (0 ≤ cfg.num_simulations →
      searchLoop R shuffle roll cfg root_turn t 0 =
        ((searchStep R shuffle roll cfg root_turn)^[cfg.num_simulations.toNat] t,
          cfg.num_simulations)) ∧
    (∀ n : ℕ, ((searchStep R shuffle roll cfg root_turn)^[n]
        (MCTSNode.create R shuffle board none 0)).visits = n) := by
  constructor
  · intro h
    exact searchLoop_eq_iterate R shuffle roll cfg root_turn t h
  · intro n
    rw [iterate_visits R shuffle roll cfg root_turn _ n, MCTSNode.create_visits]
    omega

/-- C6 witness: on the toy game with budget 1 the loop is exactly one iteration
ending with counter 1, and five iterations give the root five visits. -/
theorem claim_C6_witness :
    (0 : ℤ) ≤ cfgUnit.num_simulations ∧
    searchLoop ToyRules id id cfgUnit true toyRoot 0 =
      ((searchStep ToyRules id id cfgUnit true)^[cfgUnit.num_simulations.toNat] toyRoot,
        cfgUnit.num_simulations) ∧
    ((searchStep ToyRules id id cfgUnit true)^[5]
      (MCTSNode.create ToyRules id 0 none 0)).visits = 5 := by
  refine ⟨by norm_num [cfgUnit], ?_, ?_⟩
  · exact (claim_C6 ToyRules id id cfgUnit true toyRoot 0).1 (by norm_num [cfgUnit])
  · exact (claim_C6 ToyRules id id cfgUnit true toyRoot 0).2 5

/-- C7: after any number of completed iterations, every node of the search tree
whose depth is at least `max_simulation_depth` has an empty children collection;
and `expand` is a no-op on such a node even when its unexplored moves are
non-empty. -/
theorem claim_C7 {Pos Move : Type} (R : Rules Pos Move) (shuffle : List Move → List Move)
    (roll : Pos → Pos) (cfg : MCTSConfig) (root_turn : Bool) (board : Pos) :
    (∀ (n : ℕ) (s : MCTSNode Pos Move),
      InTree s ((searchStep R shuffle roll cfg root_turn)^[n]
        (MCTSNode.create R shuffle board none 0)) →
      cfg.max_simulation_depth ≤ (s.depth : ℤ) → s.children = []) ∧
    (∀ t : MCTSNode Pos Move, t.unexplored_moves ≠ [] →
      cfg.max_simulation_depth ≤ (t.depth : ℤ) →
      MCTSNode.expand R shuffle cfg.max_simulation_depth t = t) := by
  constructor
  · intro n s hIn
    have hInit : AllTree (fun s => cfg.max_simulation_depth ≤ (s.depth : ℤ) →
        s.children = []) (MCTSNode.create R shuffle board none 0) :=
      allTree_create R shuffle board none 0
        (fun _ => MCTSNode.create_children R shuffle board none 0)
    have hAll := allTree_iterate R shuffle roll cfg root_turn
      (fun t => searchIteration_preserves_depthCap R shuffle roll cfg root_turn t)
      n _ hInit
    exact hAll.to_inTree hIn
  · intro t hne hd
    obtain ⟨m, rest, hmr⟩ : ∃ m rest, t.unexplored_moves = m :: rest := by
      rcases h : t.unexplored_moves with _ | ⟨m, rest⟩
      · exact absurd h hne
      · exact ⟨m, rest, rfl⟩
    unfold MCTSNode.expand
    rw [hmr]
    dsimp only
    rw [if_pos hd]

/-- C7 witness: with depth cap 0 the root itself is depth-capped and stays
childless after an iteration; `expand` is a no-op on a depth-5 node with two
unexplored moves under cap 0. -/
theorem claim_C7_witness :
    cfgZeroDepth.max_simulation_depth ≤
      ((((searchStep ToyRules id id cfgZeroDepth true)^[1]
        (MCTSNode.create ToyRules id 0 none 0))).depth : ℤ) ∧
    ((searchStep ToyRules id id cfgZeroDepth true)^[1]
      (MCTSNode.create ToyRules id 0 none 0)).children = [] ∧
    nodeDeep.unexplored_moves ≠ [] ∧
    MCTSNode.expand ToyRules id cfgZeroDepth.max_simulation_depth nodeDeep = nodeDeep := by
  have hdep : ((searchStep ToyRules id id cfgZeroDepth true)^[1]
      (MCTSNode.create ToyRules id 0 none 0)).depth = 0 := by
    rw [Function.iterate_one]
    have := searchIteration_depth ToyRules id id cfgZeroDepth true
      (MCTSNode.create ToyRules id 0 none 0)
    rw [searchStep, this, MCTSNode.create_depth]
  have h1 : cfgZeroDepth.max_simulation_depth ≤
      ((((searchStep ToyRules id id cfgZeroDepth true)^[1]
        (MCTSNode.create ToyRules id 0 none 0))).depth : ℤ) := by
    rw [hdep]
    norm_num [cfgZeroDepth]
  refine ⟨h1, ?_, by decide, ?_⟩
  · exact (claim_C7 ToyRules id id cfgZeroDepth true 0).1 1 _ (InTree.refl _) h1
  · exact (claim_C7 ToyRules id id cfgZeroDepth true 0).2 nodeDeep (by decide)
      (by norm_num [cfgZeroDepth, nodeDeep, MCTSNode.depth, MCTSNode.data])

/-- C8: after any number of completed iterations, every node of the search tree
satisfies `0 ≤ win_score ≤ visit_count` — each backpropagation adds 1 to the
visit count and a value in `[0, 1]` to the win score along the whole path. -/
theorem claim_C8 {Pos Move : Type} (R : Rules Pos Move) (shuffle : List Move → List Move)
    (roll : Pos → Pos) (cfg : MCTSConfig) (root_turn : Bool) (board : Pos) :
    ∀ (n : ℕ) (s : MCTSNode Pos Move),
      InTree s ((searchStep R shuffle roll cfg root_turn)^[n]
        (MCTSNode.create R shuffle board none 0)) →
      0 ≤ s.wins ∧ s.wins ≤ (s.visits : ℚ) := by
  intro n s hIn
  have hInit : AllTree (fun s => 0 ≤ s.wins ∧ s.wins ≤ (s.visits : ℚ))
      (MCTSNode.create R shuffle board none 0) :=
    allTree_create R shuffle board none 0
      (by rw [MCTSNode.create_wins, MCTSNode.create_visits]; norm_num)
  have hAll := allTree_iterate R shuffle roll cfg root_turn
    (fun t => searchIteration_preserves_winsBound R shuffle roll cfg root_turn t)
    n _ hInit
  exact hAll.to_inTree hIn

/-- C8 witness: the tree after one toy iteration contains the root with
`wins = 1/2 ≤ visits = 1`. -/
theorem claim_C8_witness :
    0 ≤ toyRoot1.wins ∧ toyRoot1.wins ≤ (toyRoot1.visits : ℚ) := by
  have h1 : (searchStep ToyRules id id cfgUnit true)^[1]
      (MCTSNode.create ToyRules id 0 none 0) = toyRoot1 := by
    rw [Function.iterate_one]
    exact toy_step cfgUnit true (by norm_num [cfgUnit])
  refine claim_C8 ToyRules id id cfgUnit true 0 1 toyRoot1 ?_
  rw [h1]
  exact InTree.refl _

/-- C9: after any number of completed iterations, every node's visit count is at
least the sum of its children's visit counts; consequently every child with a
positive visit count has a parent with a positive visit count, so
`log(parent.visits)` and the division `wins/visits` inside `ucb1_value` are
evaluated only on positive counts. -/
theorem claim_C9 {Pos Move : Type} (R : Rules Pos Move) (shuffle : List Move → List Move)
    (roll : Pos → Pos) (cfg : MCTSConfig) (root_turn : Bool) (board : Pos) :
    ∀ n : ℕ,
      (∀ s : MCTSNode Pos Move,
        InTree s ((searchStep R shuffle roll cfg root_turn)^[n]
          (MCTSNode.create R shuffle board none 0)) →
        (s.children.map MCTSNode.visits).sum ≤ s.visits) ∧
      (∀ (s c : MCTSNode Pos Move),
        InTree s ((searchStep R shuffle roll cfg root_turn)^[n]
          (MCTSNode.create R shuffle board none 0)) →
        c ∈ s.children → 0 < c.visits → 0 < s.visits) := by
  intro n
  have hInit : AllTree (fun s => (s.children.map MCTSNode.visits).sum ≤ s.visits)
      (MCTSNode.create R shuffle board none 0) :=
    allTree_create R shuffle board none 0
      (by rw [MCTSNode.create_children, MCTSNode.create_visits]; simp)
  have hAll := allTree_iterate R shuffle roll cfg root_turn
    (fun t => searchIteration_preserves_childSum R shuffle roll cfg root_turn t)
    n _ hInit
  refine ⟨fun s hIn => hAll.to_inTree hIn, fun s c hIn hc hpos => ?_⟩
  have hsum := hAll.to_inTree hIn
  have hle : c.visits ≤ (s.children.map MCTSNode.visits).sum :=
    List.le_sum_of_mem (List.mem_map_of_mem MCTSNode.visits hc)
  omega

/-- C9 witness: in the tree after one toy iteration the expanded child has one
visit and its parent (the root) has a positive visit count. -/
theorem claim_C9_witness :
    toyChild ∈ toyRoot1.children ∧ 0 < toyChild.visits ∧ 0 < toyRoot1.visits := by
  have h1 : (searchStep ToyRules id id cfgUnit true)^[1]
      (MCTSNode.create ToyRules id 0 none 0) = toyRoot1 := by
    rw [Function.iterate_one]
    exact toy_step cfgUnit true (by norm_num [cfgUnit])
  have hmem : toyChild ∈ toyRoot1.children := by
    rw [toyRoot1, MCTSNode.children_mk]
    exact List.mem_singleton.2 rfl
  refine ⟨hmem, by decide, ?_⟩
  refine (claim_C9 ToyRules id id cfgUnit true 0 1).2 toyRoot1 toyChild ?_ hmem (by decide)
  rw [h1]
  exact InTree.refl _

/-- C10: on a non-terminal root with `iteration_budget ≥ 1` and
`max_tree_depth ≥ 1`, the root has at least one child after the loop, the
most-visited root child has at least one visit, and `search` never raises — the
final best-move selection does not run on an empty collection and the win-rate
division is not by zero. -/
theorem claim_C10 {Pos Move : Type} (R : Rules Pos Move) (shuffle : List Move → List Move)
    (roll : Pos → Pos) (cfg : MCTSConfig) (board : Pos)
    (hb : 1 ≤ cfg.num_simulations) (hd : 1 ≤ cfg.max_simulation_depth)
    (hterm : R.isGameOver board = false) (hne : shuffle (R.legalMoves board) ≠ []) :
    (searchLoop R shuffle roll cfg (R.turn board)
        (MCTSNode.create R shuffle board none 0) 0).1.children ≠ [] ∧
    (∀ bc, (searchLoop R shuffle roll cfg (R.turn board)
        (MCTSNode.create R shuffle board none 0) 0).1.children.argmax MCTSNode.visits =
          some bc → 1 ≤ bc.visits) ∧
    (∀ e, ChessMCTS.search R shuffle roll cfg board ≠ Except.error e) :=
  search_ok_of R shuffle roll cfg board hb hd hterm hne

/-- C10 witness: the toy game with budget 1 and depth 1 satisfies all the
hypotheses and `search` returns without error. -/
theorem claim_C10_witness :
    (1 : ℤ) ≤ cfgUnit.num_simulations ∧ ToyRules.isGameOver 0 = false ∧
    id (ToyRules.legalMoves 0) ≠ [] ∧
    (∀ e, ChessMCTS.search ToyRules id id cfgUnit 0 ≠ Except.error e) := by
  refine ⟨by norm_num [cfgUnit], by decide, by decide, ?_⟩
  exact (claim_C10 ToyRules id id cfgUnit 0 (by norm_num [cfgUnit])
    (by norm_num [cfgUnit]) (by decide) (by decide)).2.2
